import Mathlib

/-!
Verification of the ordered k-way merge operator of `velox/exec/Merge.cpp`
(and of the related exchange / arbitration facts) against its natural-language
specification.  The C++ code is shallowly embedded: batches are lists of rows,
a row is a list of column values, machine integers become `Int`/`Nat`, and the
stateful operator becomes explicit state passing driven by fuel.  Sources are
modelled in their non-blocking behavior for the merge loop (a blocked source
only suspends the loop and changes no data); a separate model with an explicit
reply script covers the blocking behavior of `SourceStream::pop`.
-/

namespace VeloxMerge

/-- Comparison flags of one sort key, as built in `Merge::Merge` from the
`core::SortOrder` (`CompareFlags{nullsFirst, ascending, false}`);
`equalsOnly` is always `false` there and is omitted. -/
structure CompareFlags where
  nullsFirst : Bool
  ascending : Bool
  deriving Repr, DecidableEq

/-- A column value; `none` models SQL NULL. -/
abbrev Value := Option Int

/-- A row of the operator's output type: one value per channel. -/
abbrev Row := List Value

/-- One entry of `Merge::sortingKeys_`: a column channel paired with compare
flags. -/
structure SortingKey where
  channel : Nat
  flags : CompareFlags
  deriving Repr, DecidableEq

/-- Modelled from the spec: the column `compare(otherBatch, i, j, flags)`
operation returning `{-1,0,+1}` and "respecting the ascending/nulls-first
flags" (`BaseVector::compare` itself is not among the sources).  Nulls are
ordered by `nullsFirst`; `ascending = false` reverses the order of non-null
values. -/
def compareValues (flags : CompareFlags) (a b : Value) : Int :=
  match a, b with
  | none, none => 0
  | none, some _ => if flags.nullsFirst then -1 else 1
  | some _, none => if flags.nullsFirst then 1 else -1
  | some x, some y =>
    if flags.ascending then (if x < y then -1 else if y < x then 1 else 0)
    else (if y < x then -1 else if x < y then 1 else 0)

/-- Value of row `r` at channel `c` (a key column read; rows are
key-compatible, so a missing channel just reads as null). -/
def keyAt (r : Row) (c : Nat) : Value := r.getD c none

/-- Lexicographic three-way comparison of two rows under the sort key list:
keys left to right, first non-zero column compare decides.  This is the loop
of `SourceStream::operator<` with the boolean postprocessing removed. -/
def compareRows (keys : List SortingKey) (a b : Row) : Int :=
  match keys with
  | [] => 0
  | k :: rest =>
    let r := compareValues k.flags (keyAt a k.channel) (keyAt b k.channel)
    if r = 0 then compareRows rest a b else r

/-- The loop of `SourceStream::operator<` (Merge.cpp:224-241) on two rows:
for each sorting key compare the key columns; on the first non-zero result
return `result < 0`; if all keys compare equal return `false`. -/
def rowLtB (keys : List SortingKey) (a b : Row) : Bool :=
  match keys with
  | [] => false
  | k :: rest =>
    let r := compareValues k.flags (keyAt a k.channel) (keyAt b k.channel)
    if r = 0 then rowLtB rest a b else decide (r < 0)

/-- Non-strict row order induced by the key list ("not greater"). -/
def rowLe (keys : List SortingKey) (a b : Row) : Prop :=
  compareRows keys a b ≤ 0

instance (keys : List SortingKey) (a b : Row) : Decidable (rowLe keys a b) := by
  unfold rowLe; infer_instance

/-- The column compare used at position `i` of the key list, for stating the
short-circuit property of `SourceStream::operator<`. -/
def keyCompareAt (keys : List SortingKey) (i : Nat) (a b : Row) : Int :=
  match keys[i]? with
  | some k => compareValues k.flags (keyAt a k.channel) (keyAt b k.channel)
  | none => 0

theorem compareValues_eq_zero (flags : CompareFlags) (a b : Value) :
    compareValues flags a b = 0 ↔ a = b := by
  rcases a with _ | x <;> rcases b with _ | y <;> simp only [compareValues] <;>
    first
      | (split_ifs <;> simp_all <;> omega)
      | simp_all

theorem compareValues_neg (flags : CompareFlags) (a b : Value) :
    compareValues flags b a = -compareValues flags a b := by
  rcases a with _ | x <;> rcases b with _ | y <;> simp only [compareValues]
  · simp
  · split_ifs <;> omega
  · split_ifs <;> omega
  · split_ifs <;> omega

theorem compareValues_lt_trans (flags : CompareFlags) (a b c : Value)
    (hab : compareValues flags a b < 0) (hbc : compareValues flags b c < 0) :
    compareValues flags a c < 0 := by
  rcases a with _ | x <;> rcases b with _ | y <;> rcases c with _ | z <;>
    simp only [compareValues] at hab hbc ⊢ <;>
    first
      | omega
      | (split_ifs at hab hbc ⊢ <;> omega)

theorem compareRows_neg (keys : List SortingKey) (a b : Row) :
    compareRows keys b a = -compareRows keys a b := by
  induction keys with
  | nil => simp [compareRows]
  | cons k rest ih =>
    simp only [compareRows, compareValues_neg k.flags (keyAt a k.channel)]
    by_cases hu : compareValues k.flags (keyAt a k.channel) (keyAt b k.channel) = 0
    · rw [if_pos hu, if_pos (by omega), ih]
    · rw [if_neg hu, if_neg (by omega)]

theorem compareRows_refl (keys : List SortingKey) (a : Row) :
    compareRows keys a a = 0 := by
  induction keys with
  | nil => simp [compareRows]
  | cons k rest ih => simp [compareRows, compareValues_eq_zero, ih]

theorem compareRows_eq_congr (keys : List SortingKey) (a b c : Row)
    (hab : compareRows keys a b = 0) :
    compareRows keys a c = compareRows keys b c := by
  induction keys with
  | nil => simp [compareRows]
  | cons k rest ih =>
    simp only [compareRows] at hab ⊢
    by_cases hu : compareValues k.flags (keyAt a k.channel) (keyAt b k.channel) = 0
    · have hval := (compareValues_eq_zero k.flags _ _).mp hu
      rw [if_pos hu] at hab
      rw [hval]
      by_cases hv : compareValues k.flags (keyAt b k.channel) (keyAt c k.channel) = 0
      · rw [if_pos hv, if_pos hv, ih hab]
      · rw [if_neg hv, if_neg hv]
    · rw [if_neg hu] at hab; exact absurd hab hu

theorem compareRows_eq_congr_right (keys : List SortingKey) (a b c : Row)
    (hbc : compareRows keys b c = 0) :
    compareRows keys a b = compareRows keys a c := by
  have h1 : compareRows keys b a = compareRows keys c a :=
    compareRows_eq_congr keys b c a hbc
  have h2 := compareRows_neg keys a b
  have h3 := compareRows_neg keys a c
  omega

theorem compareRows_lt_trans (keys : List SortingKey) (a b c : Row)
    (hab : compareRows keys a b < 0) (hbc : compareRows keys b c < 0) :
    compareRows keys a c < 0 := by
  induction keys with
  | nil => simp [compareRows] at hab
  | cons k rest ih =>
    simp only [compareRows] at hab hbc ⊢
    by_cases hu : compareValues k.flags (keyAt a k.channel) (keyAt b k.channel) = 0
    · have hval := (compareValues_eq_zero k.flags _ _).mp hu
      rw [if_pos hu] at hab
      rw [hval]
      by_cases hv : compareValues k.flags (keyAt b k.channel) (keyAt c k.channel) = 0
      · rw [if_pos hv] at hbc ⊢; exact ih hab hbc
      · rw [if_neg hv] at hbc ⊢; exact hbc
    · rw [if_neg hu] at hab
      by_cases hv : compareValues k.flags (keyAt b k.channel) (keyAt c k.channel) = 0
      · have hval := (compareValues_eq_zero k.flags _ _).mp hv
        rw [← hval, if_neg hu]
        exact hab
      · rw [if_neg hv] at hbc
        have hw := compareValues_lt_trans k.flags _ _ _ hab hbc
        rw [if_neg (by omega)]
        exact hw

theorem rowLe_refl (keys : List SortingKey) (a : Row) : rowLe keys a a := by
  simp [rowLe, compareRows_refl]

theorem rowLe_trans (keys : List SortingKey) {a b c : Row}
    (hab : rowLe keys a b) (hbc : rowLe keys b c) : rowLe keys a c := by
  unfold rowLe at *
  rcases lt_or_eq_of_le hab with h1 | h1
  · rcases lt_or_eq_of_le hbc with h2 | h2
    · exact le_of_lt (compareRows_lt_trans keys a b c h1 h2)
    · have h3 := compareRows_eq_congr_right keys a b c h2
      omega
  · have h3 := compareRows_eq_congr keys a b c h1
    omega

theorem rowLtB_eq_decide (keys : List SortingKey) (a b : Row) :
    rowLtB keys a b = decide (compareRows keys a b < 0) := by
  induction keys with
  | nil => simp [rowLtB, compareRows]
  | cons k rest ih =>
    simp only [rowLtB, compareRows]
    split_ifs with h
    · exact ih
    · rfl

theorem rowLe_of_not_ltB (keys : List SortingKey) (a b : Row)
    (h : rowLtB keys a b = false) : rowLe keys b a := by
  rw [rowLtB_eq_decide] at h
  simp at h
  unfold rowLe
  rw [compareRows_neg]
  omega

/-- State of one `SourceStream` cursor (the fields of `SourceStream` in
`Merge.h` as manipulated by `Merge.cpp`) together with its `MergeSource`:
the source is a FIFO of row batches, modelled by `pending`, the batches its
`next()` has not yet returned.  The key-column pointers (`keyColumns_`) are
implicit: key columns are read directly from `data`. -/
structure SourceStream where
  /-- Batches the underlying `MergeSource` will deliver on future `next()`
  calls, in order; past the end `next()` reports end of stream. -/
  pending : List (List Row)
  /-- `data_`: the current batch (`[]` models a null batch). -/
  data : List Row
  /-- `currentSourceRow_`. -/
  currentSourceRow : Nat
  /-- `firstSourceRow_`. -/
  firstSourceRow : Nat
  /-- `outputRows_`: the selected output slots.  The bitmap is applied in
  increasing slot order, and `setOutputRow` is called with increasing slot
  numbers between flushes, so the selection is kept as the list of slots in
  insertion order. -/
  outputRows : List Nat
  /-- `atEnd_`. -/
  atEnd : Bool
  deriving Repr, DecidableEq

/-- The row currently representing the stream in the tournament
(`keyColumns_[i]` at `currentSourceRow_` reads this row's key columns). -/
def SourceStream.current (s : SourceStream) : Row := s.data.getD s.currentSourceRow []

/-- `SourceStream::operator<` (Merge.cpp:224-241): compare the two cursors'
current rows key column by key column, short-circuiting on the first non-zero
compare result. -/
def streamLt (keys : List SortingKey) (a b : SourceStream) : Bool :=
  rowLtB keys a.current b.current

/-- `SourceStream::fetchMoreData` (Merge.cpp:279-302) for a source that does
not block: `source_->next` yields the next pending batch (null once the
source is drained); `atEnd_` becomes true iff the batch is null or empty;
`currentSourceRow_` resets to 0; lazy loading and the rebuild of
`keyColumns_` need no counterpart since keys are read from `data` itself. -/
def fetchMoreData (s : SourceStream) : SourceStream :=
  match s.pending with
  | [] => { s with data := [], atEnd := true, currentSourceRow := 0 }
  | b :: rest =>
      { s with pending := rest, data := b, atEnd := b.isEmpty, currentSourceRow := 0 }

/-- `SourceStream::pop` (Merge.cpp:243-252) for a source that does not block:
advance `currentSourceRow_` by one; at the end of the batch run the
`VELOX_CHECK(!outputRows_.hasSelections())` — modelled by returning `none`
when the check would fail — and fetch the next batch. -/
def SourceStream.pop (s : SourceStream) : Option SourceStream :=
  let s' : SourceStream := { s with currentSourceRow := s.currentSourceRow + 1 }
  if s'.currentSourceRow = s'.data.length then
    if s'.outputRows.isEmpty then some (fetchMoreData s') else none
  else some s'

/-- Modelled from the spec: `SourceStream::setOutputRow` (declared in
`Merge.h`, which is not among the sources; spec §4.3: "marks `slot` in
`outputSelection`; returns true iff `currentRow` is the last row of
`currentBatch`").  Used by `Merge::getOutput` at Merge.cpp:191. -/
def setOutputRow (s : SourceStream) (slot : Nat) : SourceStream × Bool :=
  ({ s with outputRows := s.outputRows ++ [slot] },
   s.currentSourceRow + 1 = s.data.length)

/-- The output batch under construction (`output_`): one slot per output row;
`none` marks a slot whose columns have not been written yet; `[]` models a
null `RowVectorPtr` (before allocation or after the batch was moved out). -/
abbrev OutputBuf := List (Option Row)

/-- The `applyToSelected` pass of `SourceStream::copyToOutput` followed by the
column-wise `copy` (Merge.cpp:261-268): the selected slots, in increasing slot
order, receive consecutive source rows starting at `firstSourceRow_`. -/
def writeSelected (data : List Row) : List Nat → Nat → OutputBuf → OutputBuf
  | [], _, out => out
  | j :: rest, sourceRow, out =>
    writeSelected data rest (sourceRow + 1) (out.set j (some (data.getD sourceRow [])))

/-- `SourceStream::copyToOutput` (Merge.cpp:254-277): copy the selected output
slots from consecutive source rows starting at `firstSourceRow_`, clear the
selection, then reset `firstSourceRow_` to 0 if the tail of the batch was
consumed, else advance it to the first unconsumed row. -/
def copyToOutput (s : SourceStream) (out : OutputBuf) : SourceStream × OutputBuf :=
  if s.outputRows.isEmpty then (s, out)
  else
    let out := writeSelected s.data s.outputRows s.firstSourceRow out
    let sourceRow := s.firstSourceRow + s.outputRows.length
    ({ s with outputRows := [],
              firstSourceRow := if sourceRow = s.data.length then 0 else sourceRow },
     out)

/-- Modelled from the spec: `TreeOfLosers<SourceStream>::next()`
(`TreeOfLosers.h` is not among the sources; spec §4.4: "returns the smallest
current stream or null when all streams are exhausted", with a deterministic
traversal and no tie-break on source id).  Returns the index and value of the
lowest-indexed stream that is not at end and that no other such stream beats
strictly under `SourceStream::operator<`. -/
def pickMinAux (keys : List SortingKey) : List SourceStream → Option (Nat × SourceStream)
  | [] => none
  | s :: rest =>
    match pickMinAux keys rest with
    | none => if s.atEnd then none else some (0, s)
    | some (j, t) =>
      if s.atEnd then some (j + 1, t)
      else if streamLt keys t s then some (j + 1, t) else some (0, s)

/-- State of the `Merge` operator around `Merge::getOutput`: the per-source
cursors (one per entry of `sources_`; for more than one source these are the
`streams_` fed to the tree of losers), the output batch under construction,
`outputSize_` and `finished_`. -/
structure MergeState where
  streams : List SourceStream
  output : OutputBuf
  outputSize : Nat
  finished : Bool
  deriving Repr, DecidableEq

/-- Result of one iteration of the merge loop: keep looping, or return from
`getOutput` with an optional batch. -/
inductive IterResult where
  | again (st : MergeState)
  | ret (st : MergeState) (out : Option (List Row))
  deriving Repr, DecidableEq

/-- `output_->resize(n)` followed by reading the batch out: the first `n`
slots as rows (every slot below `n` is proved to be filled whenever this is
reached, so the `.getD []` default never shows). -/
def resizeOut (out : OutputBuf) (n : Nat) : List Row :=
  (out.take n).map (fun o => o.getD [])

/-- Copy out pending selections from every stream (`Merge.cpp:203-206`). -/
def copyAllToOutput : List SourceStream → OutputBuf → List SourceStream × OutputBuf
  | [], out => ([], out)
  | s :: rest, out =>
    let p := copyToOutput s out
    let q := copyAllToOutput rest p.2
    (p.1 :: q.1, q.2)

/-- One iteration of the `for (;;)` loop of `Merge::getOutput`
(Merge.cpp:176-215) with non-blocking sources: `treeOfLosers_->next()` is
`pickMinAux`; the winning stream is marked for the current slot, flushed
before its batch is replaced when it sits on the batch's last row, popped, and
a full output batch is emitted after copying out every stream.  With
non-blocking sources `sourceBlockingFutures_` stays empty, so the early
`return nullptr` at Merge.cpp:212 never fires.  A `none` result models a
failed `VELOX_CHECK` in `SourceStream::pop`. -/
def mergeIter (keys : List SortingKey) (B : Nat) (st : MergeState) : Option IterResult :=
  match pickMinAux keys st.streams with
  | none =>
    some (.ret { st with finished := true }
      (if st.outputSize = 0 then none else some (resizeOut st.output st.outputSize)))
  | some (i, w) =>
    let p := setOutputRow w st.outputSize
    let q := if p.2 then copyToOutput p.1 st.output else (p.1, st.output)
    let outputSize := st.outputSize + 1
    match q.1.pop with
    | none => none
    | some w' =>
      let streams := st.streams.set i w'
      if outputSize = B then
        let r := copyAllToOutput streams q.2
        some (.ret { streams := r.1, output := [], outputSize := 0, finished := st.finished }
          (some (resizeOut r.2 B)))
      else
        some (.again { streams := streams, output := q.2, outputSize := outputSize,
                       finished := st.finished })

/-- The `for (;;)` loop of `Merge::getOutput`, driven by fuel; `none` means
the fuel ran out or a check failed (neither happens from a well-formed state
with enough fuel). -/
def getOutputLoop (keys : List SortingKey) (B : Nat) : Nat → MergeState → Option (MergeState × Option (List Row))
  | 0, _ => none
  | fuel + 1, st =>
    match mergeIter keys B st with
    | none => none
    | some (.again st') => getOutputLoop keys B fuel st'
    | some (.ret st' out) => some (st', out)

/-- The single-source passthrough of `Merge::getOutput` (Merge.cpp:154-166)
with a non-blocking source: forward the batch obtained from `sources_[0]`
verbatim; `finished_` becomes true exactly when the source returns null. -/
def passIter (st : MergeState) : MergeState × Option (List Row) :=
  match st.streams with
  | [s] =>
    match s.pending with
    | [] => ({ st with finished := true }, none)
    | b :: rest => ({ st with streams := [{ s with pending := rest }] }, some b)
  | _ => (st, none)

/-- `Merge::getOutput` (Merge.cpp:147-216) with non-blocking sources: null when
already finished; the verbatim passthrough when there is exactly one source;
otherwise allocate `output_` if it was moved out and run the merge loop. -/
def getOutput (keys : List SortingKey) (B : Nat) (fuel : Nat) (st : MergeState) :
    Option (MergeState × Option (List Row)) :=
  if st.finished then some (st, none)
  else if st.streams.length = 1 then some (passIter st)
  else
    getOutputLoop keys B fuel
      (if st.output.isEmpty then { st with output := List.replicate B none } else st)

/-- `Merge::getOutput` restricted to the general tree path (no single-source
dispatch), used to compare the passthrough against the general algorithm at
one source. -/
def getOutputTree (keys : List SortingKey) (B : Nat) (fuel : Nat) (st : MergeState) :
    Option (MergeState × Option (List Row)) :=
  if st.finished then some (st, none)
  else
    getOutputLoop keys B fuel
      (if st.output.isEmpty then { st with output := List.replicate B none } else st)

/-- Drive the operator as the driver does: call `getOutput` repeatedly,
collecting the returned batches, until `isFinished()`. -/
def runMerge (keys : List SortingKey) (B : Nat) : Nat → MergeState → Option (List (List Row))
  | 0, st => if st.finished then some [] else none
  | fuel + 1, st =>
    if st.finished then some []
    else
      match getOutput keys B (fuel + 1) st with
      | none => none
      | some (st', out) =>
        match runMerge keys B fuel st' with
        | none => none
        | some rest => some (out.toList ++ rest)

/-- Like `runMerge` but always through the general tree path. -/
def runMergeTree (keys : List SortingKey) (B : Nat) : Nat → MergeState → Option (List (List Row))
  | 0, st => if st.finished then some [] else none
  | fuel + 1, st =>
    if st.finished then some []
    else
      match getOutputTree keys B (fuel + 1) st with
      | none => none
      | some (st', out) =>
        match runMergeTree keys B fuel st' with
        | none => none
        | some rest => some (out.toList ++ rest)

/-- The blocking reasons `Merge.cpp` reports. -/
inductive BlockingReason where
  | kNotBlocked
  | kWaitForProducer
  deriving Repr, DecidableEq

/-- `Merge::isBlocked` (Merge.cpp:89-124) after `addMergeSources` has installed
the sources, with non-blocking sources: an empty source list finishes the
operator at once (Merge.cpp:97-102); otherwise the sources are started, for
more than one source the tree is built, and with no pending producer futures
the operator reports not blocked. -/
def mergeIsBlocked (st : MergeState) : BlockingReason × MergeState :=
  if st.streams.isEmpty then (.kNotBlocked, { st with finished := true })
  else (.kNotBlocked, st)

/-- Cursor for one source as it stands after the first `isBlocked` round: the
constructor leaves an empty cursor that needs data, and the first fetch is the
initial `fetchMoreData` (spec §4.3; `SourceStream`'s constructor and
`isBlocked` live in `Merge.h`, outside the sources). -/
def initStream (batches : List (List Row)) : SourceStream :=
  fetchMoreData
    { pending := batches, data := [], currentSourceRow := 0, firstSourceRow := 0,
      outputRows := [], atEnd := false }

/-- A freshly installed source with an empty cursor (no batch fetched yet). -/
def freshStream (batches : List (List Row)) : SourceStream :=
  { pending := batches, data := [], currentSourceRow := 0, firstSourceRow := 0,
    outputRows := [], atEnd := false }

/-- The merge operator over the given per-source batch lists after the first
`isBlocked` round: with more than one source `initializeTreeOfLosers` builds
the cursors and each cursor fetches its first batch; with a single source
`streams_` stays empty (Merge.cpp:106-109) and no batch is prefetched, so
`sources_[0]` still holds every batch when `getOutput` forwards them. -/
def initMerge (inputs : List (List (List Row))) : MergeState :=
  { streams :=
      if inputs.length = 1 then inputs.map freshStream else inputs.map initStream,
    output := [], outputSize := 0, finished := false }

/-- The general tree algorithm applied to the given sources regardless of
their number: every cursor prefetched, to be driven by `runMergeTree`. -/
def initMergeTree (inputs : List (List (List Row))) : MergeState :=
  { streams := inputs.map initStream, output := [], outputSize := 0, finished := false }

/-- Rows a stream will still deliver to the merge loop. -/
def SourceStream.future (s : SourceStream) : List Row :=
  if s.atEnd then [] else s.data.drop s.currentSourceRow ++ s.pending.flatten

/-- Total number of rows the sources will still deliver. -/
def remainingRows (st : MergeState) : Nat :=
  (st.streams.map (fun s => s.future.length)).sum

/-- Number of streams whose `outputRows_` selection has slot `j` set. -/
def countOwners (streams : List SourceStream) (j : Nat) : Nat :=
  (streams.map (fun s => if j ∈ s.outputRows then 1 else 0)).sum

/-! ### Blocking behavior of `SourceStream::pop` / `fetchMoreData`

For claim C4 the source is given an explicit reply script so that the
blocked case of `MergeSource::next` is observable. -/

/-- One reply of `MergeSource::next(data, &future)`: a batch with
`kNotBlocked`, a blocking reason together with a recorded future, or end of
stream (`kNotBlocked` with null data). -/
inductive SourceReply where
  | batch (b : List Row)
  | blocked
  | eos
  deriving Repr, DecidableEq

/-- A `SourceStream` over a scripted source: same cursor fields, plus the
replies `source_->next` will produce in order (an exhausted script keeps
reporting end of stream) and the `needData_` flag. -/
structure BStream where
  replies : List SourceReply
  data : List Row
  currentSourceRow : Nat
  firstSourceRow : Nat
  outputRows : List Nat
  needData : Bool
  atEnd : Bool
  deriving Repr, DecidableEq

/-- `SourceStream::fetchMoreData` (Merge.cpp:279-302) over a scripted source.
Returns (returned bool, new state, number of futures appended to the caller's
vector). -/
def bFetchMoreData (s : BStream) : Bool × BStream × Nat :=
  match s.replies with
  | .blocked :: rest => (true, { s with replies := rest, needData := true }, 1)
  | .batch b :: rest =>
    (false, { s with replies := rest, data := b, atEnd := b.isEmpty,
                     needData := false, currentSourceRow := 0 }, 0)
  | .eos :: rest =>
    (false, { s with replies := rest, data := [], atEnd := true,
                     needData := false, currentSourceRow := 0 }, 0)
  | [] =>
    (false, { s with data := [], atEnd := true, needData := false,
                     currentSourceRow := 0 }, 0)

/-- `SourceStream::pop` (Merge.cpp:243-252) over a scripted source: advance
`currentSourceRow_`; at the end of the batch, `VELOX_CHECK` that no selected
rows are pending (modelled as `none` when it would fail) and fetch more data;
the returned bool is true iff the advance blocked on the producer. -/
def bPop (s : BStream) : Option (Bool × BStream × Nat) :=
  let s' : BStream := { s with currentSourceRow := s.currentSourceRow + 1 }
  if s'.currentSourceRow = s'.data.length then
    if s'.outputRows.isEmpty then some (bFetchMoreData s') else none
  else some (false, s', 0)

/-! ### `MergeExchange` source installation and `LocalMerge` construction -/

/-- One exchange source as created by
`MergeSource::createMergeExchangeSource`: the remote task id it fetches from
and the per-source queued-bytes budget it obeys. -/
structure ExchangeSourceModel where
  taskId : String
  maxQueuedBytes : Int
  deriving Repr, DecidableEq

/-- The source-creation tail of `MergeExchange::addMergeSources`
(Merge.cpp:374-397): once no more splits arrive, compute the per-source
queued-bytes budget
`min(max(maxMergeExchangeBufferSize / numSources, lowerLimit), upperLimit)`
and create one exchange source per collected remote task id, all with that
same budget.  `MergeSource::kMaxQueuedBytesLowerLimit/UpperLimit` are declared
outside these sources, so the two limits are parameters. -/
def createExchangeSources (lowerLimit upperLimit maxMergeExchangeBufferSize : Int)
    (remoteSourceTaskIds : List String) : List ExchangeSourceModel :=
  if remoteSourceTaskIds.isEmpty then []
  else
    let maxQueuedBytesPerSource : Int :=
      min (max (maxMergeExchangeBufferSize / (remoteSourceTaskIds.length : Int)) lowerLimit)
        upperLimit
    remoteSourceTaskIds.map (fun t => { taskId := t, maxQueuedBytes := maxQueuedBytesPerSource })

/-- The spec's `clamp(x, lo, hi)`, spelled as the claim spells it:
`min(max(x, lo), hi)`. -/
def specClamp (x lo hi : Int) : Int := min (max x lo) hi

/-- `MergeExchange::addMergeSources` (Merge.cpp:347-403) with all splits
already collected: any driver other than 0 skips installation and reports not
blocked (Merge.cpp:348-352); driver 0 installs one source per remote task id
with the shared budget. -/
def exchangeAddMergeSources (driverId : Nat) (lowerLimit upperLimit bufferSize : Int)
    (remoteSourceTaskIds : List String) : BlockingReason × List ExchangeSourceModel :=
  if driverId ≠ 0 then (.kNotBlocked, [])
  else (.kNotBlocked, createExchangeSources lowerLimit upperLimit bufferSize remoteSourceTaskIds)

/-- Result of `exprToChannel` for one sorting key: a column channel or the
`kConstantChannel` marker. -/
inductive KeyChannel where
  | column (c : Nat)
  | constantChannel
  deriving Repr, DecidableEq

/-- A `core::SortOrder`. -/
structure SortOrder where
  nullsFirst : Bool
  ascending : Bool
  deriving Repr, DecidableEq

/-- The sorting-key setup of the `Merge` constructor (Merge.cpp:54-68): each
key's channel must not be constant (`VELOX_CHECK_NE(channel,
kConstantChannel)`), and the compare flags are built from the sort order. -/
def mergeConstructKeys : List KeyChannel → List SortOrder → Except String (List SortingKey)
  | [], _ => .ok []
  | _, [] => .ok []
  | ch :: chans, o :: orders =>
    match ch with
    | .constantChannel => .error "Merge doesn't allow constant grouping keys"
    | .column c =>
      match mergeConstructKeys chans orders with
      | .error e => .error e
      | .ok keys => .ok ({ channel := c, flags := ⟨o.nullsFirst, o.ascending⟩ } :: keys)

/-- `LocalMerge::LocalMerge` (Merge.cpp:304-320): the base `Merge` constructor
runs, then `VELOX_CHECK_EQ(driverId, 0, "LocalMerge needs to run
single-threaded")`. -/
def localMergeConstruct (driverId : Nat) (chans : List KeyChannel)
    (orders : List SortOrder) : Except String (List SortingKey) :=
  match mergeConstructKeys chans orders with
  | .error e => .error e
  | .ok keys =>
    if driverId = 0 then .ok keys
    else .error "LocalMerge needs to run single-threaded"

/-! ### Arbitration round (spec-modelled)

The shared arbitrator implementation is not among the sources — only its test
`SharedArbitratorTest.cpp` is — so the per-round pause behavior is modelled
from the spec. -/

/-- Modelled from the spec: one operator of a task under arbitration,
self-reporting `canReclaim` (spec §4.7; the arbitrator and operator sources
are absent). -/
structure ArbOperator where
  canReclaim : Bool
  deriving Repr, DecidableEq

/-- Modelled from the spec: a task is reclaim-capable when some operator
self-reports `canReclaim` (spec §4.7 step 2). -/
def taskReclaimable (ops : List ArbOperator) : Bool :=
  ops.any (fun op => op.canReclaim)

/-- Modelled from the spec: how many times one arbitration round pauses a
task.  Spec §4.7: reclaim from a victim pauses its task once; "tasks
consisting entirely of non-reclaimable operators yield zero" and are skipped
— the expectation checked by `skipNonReclaimableTaskTest`
(SharedArbitratorTest.cpp:436-527: `taskPausedCount` stays 1, all of it on the
reclaimable task). -/
def roundPauseCount (ops : List ArbOperator) : Nat :=
  if taskReclaimable ops then 1 else 0

/-! ### List helpers -/

theorem list_split {α : Type} (l : List α) (i : Nat) (x : α) (h : l[i]? = some x) :
    l = l.take i ++ x :: l.drop (i + 1) := by
  induction l generalizing i with
  | nil => simp at h
  | cons a t ih =>
    cases i with
    | zero =>
      simp only [List.getElem?_cons_zero, Option.some.injEq] at h
      simp [h]
    | succ n =>
      simp only [List.getElem?_cons_succ] at h
      simpa using ih n h

theorem list_set_split {α : Type} (l : List α) (i : Nat) (x y : α) (h : l[i]? = some x) :
    l.set i y = l.take i ++ y :: l.drop (i + 1) := by
  induction l generalizing i with
  | nil => simp at h
  | cons a t ih =>
    cases i with
    | zero => simp
    | succ n =>
      simp only [List.getElem?_cons_succ] at h
      simpa using ih n h

theorem list_take_length_of_get? {α : Type} (l : List α) (i : Nat) (x : α)
    (h : l[i]? = some x) : (l.take i).length = i := by
  have hi : i < l.length := by
    by_contra hge
    rw [List.getElem?_eq_none (by omega)] at h
    exact Option.noConfusion h
  simp [List.length_take]
  omega

theorem countOwners_append (l₁ l₂ : List SourceStream) (j : Nat) :
    countOwners (l₁ ++ l₂) j = countOwners l₁ j + countOwners l₂ j := by
  simp [countOwners]

theorem countOwners_cons (s : SourceStream) (l : List SourceStream) (j : Nat) :
    countOwners (s :: l) j = (if j ∈ s.outputRows then 1 else 0) + countOwners l j := by
  simp [countOwners]

theorem countOwners_eq_zero (l : List SourceStream) (j : Nat) :
    countOwners l j = 0 ↔ ∀ s ∈ l, j ∉ s.outputRows := by
  induction l with
  | nil => simp [countOwners]
  | cons s t ih =>
    rw [countOwners_cons]
    constructor
    · intro h
      have h1 : (if j ∈ s.outputRows then 1 else 0) = 0 := by omega
      have h2 : countOwners t j = 0 := by omega
      intro u hu
      rcases hu with _ | hu
      · intro hmem; simp [hmem] at h1
      · exact (ih.mp h2) u (by assumption)
    · intro h
      have h1 : j ∉ s.outputRows := h s (by simp)
      have h2 : countOwners t j = 0 := ih.mpr (fun u hu => h u (by simp [hu]))
      simp [h1, h2]

/-! ### `writeSelected` and `copyToOutput` lemmas -/

theorem writeSelected_length (data : List Row) :
    ∀ (slots : List Nat) (sr : Nat) (out : OutputBuf),
    (writeSelected data slots sr out).length = out.length := by
  intro slots
  induction slots with
  | nil => intro sr out; rfl
  | cons j rest ih =>
    intro sr out
    simp [writeSelected, ih]

theorem writeSelected_not_mem (data : List Row) :
    ∀ (slots : List Nat) (sr : Nat) (out : OutputBuf) (j : Nat), j ∉ slots →
    (writeSelected data slots sr out)[j]? = out[j]? := by
  intro slots
  induction slots with
  | nil => intro sr out j _; rfl
  | cons j₀ rest ih =>
    intro sr out j hj
    simp only [List.mem_cons, not_or] at hj
    simp only [writeSelected]
    rw [ih (sr + 1) _ j hj.2, List.getElem?_set_ne (Ne.symm hj.1)]

theorem writeSelected_mem (data : List Row) :
    ∀ (slots : List Nat) (sr : Nat) (out : OutputBuf) (k j : Nat), slots.Nodup →
    slots[k]? = some j → j < out.length →
    (writeSelected data slots sr out)[j]? = some (some (data.getD (sr + k) [])) := by
  intro slots
  induction slots with
  | nil => intro sr out k j _ hk; simp at hk
  | cons j₀ rest ih =>
    intro sr out k j hnd hk hj
    rcases List.nodup_cons.mp hnd with ⟨hj₀, hndr⟩
    cases k with
    | zero =>
      simp only [List.getElem?_cons_zero, Option.some.injEq] at hk
      subst hk
      simp only [writeSelected, Nat.add_zero]
      rw [writeSelected_not_mem data rest (sr + 1) _ j₀ hj₀,
        List.getElem?_set_self hj]
    | succ k' =>
      simp only [List.getElem?_cons_succ] at hk
      have hjr : j ∈ rest := List.mem_iff_getElem?.mpr ⟨k', hk⟩
      have hne : j₀ ≠ j := fun he => hj₀ (he ▸ hjr)
      simp only [writeSelected]
      rw [show sr + (k' + 1) = sr + 1 + k' from by omega]
      exact ih (sr + 1) _ k' j hndr hk (by simpa using hj)

theorem copyToOutput_snd_length (s : SourceStream) (out : OutputBuf) :
    ((copyToOutput s out).2).length = out.length := by
  unfold copyToOutput
  split_ifs with h
  · rfl
  · simp [writeSelected_length]

theorem copyToOutput_fst (s : SourceStream) (out : OutputBuf) :
    (copyToOutput s out).1 =
      { s with
          outputRows := [],
          firstSourceRow :=
            if s.outputRows.isEmpty then s.firstSourceRow
            else if s.firstSourceRow + s.outputRows.length = s.data.length then 0
            else s.firstSourceRow + s.outputRows.length } := by
  unfold copyToOutput
  by_cases h : s.outputRows.isEmpty
  · simp only [if_pos h]
    have h' : s.outputRows = [] := List.isEmpty_iff.mp h
    cases s
    simp_all
  · simp only [if_neg h]

theorem copyToOutput_snd_not_mem (s : SourceStream) (out : OutputBuf) (j : Nat)
    (hj : j ∉ s.outputRows) : ((copyToOutput s out).2)[j]? = out[j]? := by
  unfold copyToOutput
  split_ifs with h
  · rfl
  · exact writeSelected_not_mem s.data s.outputRows s.firstSourceRow out j hj

theorem copyToOutput_snd_mem (s : SourceStream) (out : OutputBuf) (k j : Nat)
    (hnd : s.outputRows.Nodup) (hk : s.outputRows[k]? = some j) (hj : j < out.length) :
    ((copyToOutput s out).2)[j]? = some (some (s.data.getD (s.firstSourceRow + k) [])) := by
  unfold copyToOutput
  split_ifs with h
  · rw [List.isEmpty_iff.mp h] at hk
    simp at hk
  · exact writeSelected_mem s.data s.outputRows s.firstSourceRow out k j hnd hk hj

/-! ### `streamLt` order lemmas -/

theorem streamLt_self (keys : List SortingKey) (s : SourceStream) :
    streamLt keys s s = false := by
  unfold streamLt
  rw [rowLtB_eq_decide]
  simp [compareRows_refl]

theorem streamLt_false_of_le (keys : List SortingKey) (a b : SourceStream)
    (h : rowLe keys b.current a.current) : streamLt keys a b = false := by
  unfold streamLt
  rw [rowLtB_eq_decide]
  unfold rowLe at h
  rw [compareRows_neg] at h
  simp only [decide_eq_false_iff_not, not_lt]
  omega

theorem le_of_streamLt_false (keys : List SortingKey) (a b : SourceStream)
    (h : streamLt keys a b = false) : rowLe keys b.current a.current := by
  unfold streamLt at h
  exact rowLe_of_not_ltB keys a.current b.current h

theorem streamLt_asymm (keys : List SortingKey) (a b : SourceStream)
    (h : streamLt keys a b = true) : streamLt keys b a = false := by
  unfold streamLt at h ⊢
  rw [rowLtB_eq_decide] at h ⊢
  simp only [decide_eq_true_eq] at h
  simp only [decide_eq_false_iff_not, not_lt]
  rw [compareRows_neg]
  omega

/-! ### `pickMinAux` lemmas -/

theorem pickMinAux_eq_none (keys : List SortingKey) :
    ∀ (l : List SourceStream), pickMinAux keys l = none ↔ ∀ s ∈ l, s.atEnd = true := by
  intro l
  induction l with
  | nil => simp [pickMinAux]
  | cons s rest ih =>
    simp only [pickMinAux]
    rcases hr : pickMinAux keys rest with _ | ⟨j, t⟩
    · dsimp only
      by_cases hs : s.atEnd
      · constructor
        · intro _ u hu
          rcases List.mem_cons.mp hu with rfl | hu
          · exact hs
          · exact ih.mp hr u hu
        · intro _
          rw [if_pos hs]
      · constructor
        · intro h
          rw [if_neg hs] at h
          exact Option.noConfusion h
        · intro h
          exact absurd (h s (List.mem_cons_self s rest)) (by simpa using hs)
    · dsimp only
      constructor
      · intro h
        by_cases hs : s.atEnd
        · rw [if_pos hs] at h
          exact Option.noConfusion h
        · rw [if_neg hs] at h
          split at h <;> exact Option.noConfusion h
      · intro h
        have hnone : pickMinAux keys rest = none :=
          ih.mpr (fun u hu => h u (List.mem_cons_of_mem s hu))
        rw [hr] at hnone
        exact Option.noConfusion hnone

theorem pickMinAux_spec (keys : List SortingKey) :
    ∀ (l : List SourceStream) (i : Nat) (w : SourceStream),
    pickMinAux keys l = some (i, w) →
    l[i]? = some w ∧ w.atEnd = false ∧
      ∀ s ∈ l, s.atEnd = false → streamLt keys s w = false := by
  intro l
  induction l with
  | nil => intro i w h; simp [pickMinAux] at h
  | cons s rest ih =>
    intro i w h
    simp only [pickMinAux] at h
    rcases hr : pickMinAux keys rest with _ | ⟨j, t⟩
    · rw [hr] at h
      try dsimp only at h
      by_cases hs : s.atEnd
      · rw [if_pos hs] at h
        exact absurd h (by simp)
      · rw [if_neg hs] at h
        simp only [Option.some.injEq, Prod.mk.injEq] at h
        obtain ⟨hi, hw⟩ := h
        subst hi; subst hw
        refine ⟨by simp, by simpa using hs, ?_⟩
        intro u hu hune
        rcases List.mem_cons.mp hu with rfl | hu
        · exact streamLt_self keys u
        · have hend := (pickMinAux_eq_none keys rest).mp hr u hu
          rw [hune] at hend
          exact Bool.noConfusion hend
    · rw [hr] at h
      try dsimp only at h
      obtain ⟨hjr, htne, hmin⟩ := ih j t hr
      by_cases hs : s.atEnd
      · rw [if_pos hs] at h
        simp only [Option.some.injEq, Prod.mk.injEq] at h
        obtain ⟨hi, hw⟩ := h
        subst hi; subst hw
        refine ⟨by simpa using hjr, htne, ?_⟩
        intro u hu hune
        rcases List.mem_cons.mp hu with rfl | hu
        · rw [hune] at hs; exact Bool.noConfusion hs
        · exact hmin u hu hune
      · rw [if_neg hs] at h
        by_cases hlt : streamLt keys t s
        · rw [if_pos hlt] at h
          simp only [Option.some.injEq, Prod.mk.injEq] at h
          obtain ⟨hi, hw⟩ := h
          subst hi; subst hw
          refine ⟨by simpa using hjr, htne, ?_⟩
          intro u hu hune
          rcases List.mem_cons.mp hu with rfl | hu
          · exact streamLt_asymm keys t u hlt
          · exact hmin u hu hune
        · rw [if_neg hlt] at h
          simp only [Option.some.injEq, Prod.mk.injEq] at h
          obtain ⟨hi, hw⟩ := h
          subst hi; subst hw
          refine ⟨by simp, by simpa using hs, ?_⟩
          intro u hu hune
          rcases List.mem_cons.mp hu with rfl | hu
          · exact streamLt_self keys u
          · have h1 := le_of_streamLt_false keys u t (hmin u hu hune)
            have h2 := le_of_streamLt_false keys t s (by
              cases hb : streamLt keys t s
              · rfl
              · exact absurd hb hlt)
            exact streamLt_false_of_le keys u s (rowLe_trans keys h2 h1)

/-! ### Stream invariant and future lemmas -/

/-- Structural invariant of one stream cursor, maintained by the merge loop:
batches are never empty, a drained stream holds no pending selection and no
pending batch, the cursor is inside the batch, the pending selection covers
exactly the rows `firstSourceRow_ ≤ row < currentSourceRow_`, and everything
from `firstSourceRow_` on is sorted. -/
structure StreamInv (keys : List SortingKey) (s : SourceStream) : Prop where
  pendingNonempty : ∀ b ∈ s.pending, b ≠ []
  atEnd_sel : s.atEnd = true → s.outputRows = []
  atEnd_pending : s.atEnd = true → s.pending = []
  cur_lt : s.atEnd = false → s.currentSourceRow < s.data.length
  first_add : s.atEnd = false → s.firstSourceRow + s.outputRows.length = s.currentSourceRow
  sortedTail : s.atEnd = false →
    (s.data.drop s.firstSourceRow ++ s.pending.flatten).Pairwise (rowLe keys)

theorem future_atEnd (s : SourceStream) (h : s.atEnd = true) : s.future = [] := by
  simp [SourceStream.future, h]

theorem future_not_atEnd (s : SourceStream) (h : s.atEnd = false) :
    s.future = s.data.drop s.currentSourceRow ++ s.pending.flatten := by
  simp [SourceStream.future, h]

theorem current_eq_getElem (s : SourceStream) (h : s.currentSourceRow < s.data.length) :
    s.current = s.data[s.currentSourceRow] := by
  unfold SourceStream.current
  rw [List.getD_eq_getElem?_getD, List.getElem?_eq_getElem h]
  rfl

theorem future_eq_cons (s : SourceStream) (hne : s.atEnd = false)
    (hcur : s.currentSourceRow < s.data.length) :
    s.future = s.current ::
      (s.data.drop (s.currentSourceRow + 1) ++ s.pending.flatten) := by
  rw [future_not_atEnd s hne, current_eq_getElem s hcur]
  conv_lhs => rw [List.drop_eq_getElem_cons hcur]
  rw [List.cons_append]

theorem future_pairwise (keys : List SortingKey) (s : SourceStream)
    (hinv : StreamInv keys s) : s.future.Pairwise (rowLe keys) := by
  cases hend : s.atEnd
  · rw [future_not_atEnd s hend]
    have hfc := hinv.first_add hend
    have hdrop : s.data.drop s.currentSourceRow
        = (s.data.drop s.firstSourceRow).drop (s.currentSourceRow - s.firstSourceRow) := by
      rw [List.drop_drop]
      congr 1
      omega
    rw [hdrop]
    exact List.Pairwise.sublist ((List.drop_sublist _ _).append_right _)
      (hinv.sortedTail hend)
  · rw [future_atEnd s hend]
    exact List.Pairwise.nil

theorem current_le_future (keys : List SortingKey) (s : SourceStream)
    (hinv : StreamInv keys s) (hne : s.atEnd = false) :
    ∀ y ∈ s.future, rowLe keys s.current y := by
  have hp := future_pairwise keys s hinv
  rw [future_eq_cons s hne (hinv.cur_lt hne)] at hp
  intro y hy
  rw [future_eq_cons s hne (hinv.cur_lt hne)] at hy
  rcases List.mem_cons.mp hy with rfl | hy
  · exact rowLe_refl keys _
  · exact (List.pairwise_cons.mp hp).1 y hy

theorem current_mem_future (s : SourceStream) (hne : s.atEnd = false)
    (hcur : s.currentSourceRow < s.data.length) : s.current ∈ s.future := by
  rw [future_eq_cons s hne hcur]
  exact List.mem_cons_self _ _

/-! ### Global invariants of `Merge::getOutput` -/

/-- Invariant of the state of the merge loop (`Merge.cpp:176-215`) between
iterations, relative to the rows already emitted in earlier batches
(`emitted`) and the rows already committed to slots of the batch under
construction (`committed`, one per filled slot, in slot order). -/
structure LoopInv (keys : List SortingKey) (B : Nat) (st : MergeState)
    (emitted committed : List Row) : Prop where
  outLen : st.output.length = B
  sizeLe : st.outputSize ≤ B
  commLen : committed.length = st.outputSize
  notFin : st.finished = false
  sinv : ∀ s ∈ st.streams, StreamInv keys s
  nodup : ∀ s ∈ st.streams, s.outputRows.Nodup
  ownerLt : ∀ s ∈ st.streams, ∀ j ∈ s.outputRows, j < st.outputSize
  ownersLe : ∀ j, countOwners st.streams j ≤ 1
  slotVal : ∀ s ∈ st.streams, ∀ k j, s.outputRows[k]? = some j →
    committed[j]? = some (s.data.getD (s.firstSourceRow + k) [])
  slotCopied : ∀ j < st.outputSize, countOwners st.streams j = 0 →
    st.output[j]? = some (some (committed.getD j []))
  sortedEm : (emitted ++ committed).Pairwise (rowLe keys)
  lowBound : ∀ x ∈ emitted ++ committed, ∀ s ∈ st.streams, ∀ y ∈ s.future,
    rowLe keys x y

/-- Invariant of the operator state between `getOutput` calls: the output
batch was moved out (or never allocated), no slot is pending, and everything
emitted so far is sorted and below every remaining row. -/
structure BoundaryInv (keys : List SortingKey) (st : MergeState)
    (emitted : List Row) : Prop where
  outNil : st.output = []
  size0 : st.outputSize = 0
  notFin : st.finished = false
  sinv : ∀ s ∈ st.streams, StreamInv keys s
  noSel : ∀ s ∈ st.streams, s.outputRows = []
  sortedEm : emitted.Pairwise (rowLe keys)
  lowBound : ∀ x ∈ emitted, ∀ s ∈ st.streams, ∀ y ∈ s.future, rowLe keys x y

theorem loopInv_of_boundary (keys : List SortingKey) (B : Nat) (st : MergeState)
    (emitted : List Row) (h : BoundaryInv keys st emitted) :
    LoopInv keys B { st with output := List.replicate B none } emitted [] := by
  have hcnt : ∀ j, countOwners st.streams j = 0 := fun j =>
    (countOwners_eq_zero st.streams j).mpr
      (fun s hs => by rw [h.noSel s hs]; exact List.not_mem_nil j)
  refine ⟨?_, ?_, ?_, h.notFin, h.sinv, ?_, ?_, ?_, ?_, ?_, ?_, ?_⟩
  · simp
  · rw [h.size0]; omega
  · simp [h.size0]
  · intro s hs; rw [h.noSel s hs]; exact List.nodup_nil
  · intro s hs j hj; rw [h.noSel s hs] at hj; exact absurd hj (List.not_mem_nil j)
  · intro j; rw [hcnt j]; omega
  · intro s hs k j hk; rw [h.noSel s hs] at hk; simp at hk
  · intro j hj; rw [h.size0] at hj; omega
  · simpa using h.sortedEm
  · intro x hx s hs y hy
    rw [List.append_nil] at hx
    exact h.lowBound x hx s hs y hy

theorem sumFutures_set (l : List SourceStream) (i : Nat) (w w' : SourceStream)
    (hw : l[i]? = some w) :
    ((l.set i w').map (fun s => s.future.length)).sum + w.future.length
      = (l.map (fun s => s.future.length)).sum + w'.future.length := by
  have hsplit := list_split l i w hw
  rw [list_set_split l i w w' hw]
  conv_rhs => rw [hsplit]
  simp only [List.map_append, List.map_cons, List.sum_append, List.sum_cons]
  omega

theorem resizeOut_eq (out : OutputBuf) (c : List Row) (n : Nat) (hn : n ≤ out.length)
    (hlen : c.length = n) (hval : ∀ j < n, out[j]? = some (some (c.getD j []))) :
    resizeOut out n = c := by
  apply List.ext_getElem?
  intro j
  unfold resizeOut
  rw [List.getElem?_map, List.getElem?_take]
  by_cases hj : j < n
  · rw [if_pos hj, hval j hj]
    have hjc : j < c.length := by omega
    rw [List.getElem?_eq_getElem hjc]
    simp [List.getD_eq_getElem?_getD, List.getElem?_eq_getElem hjc]
  · rw [if_neg hj, List.getElem?_eq_none (by omega)]
    simp

/-! ### Copying out: invariant preservation -/

theorem copyToOutput_fst_inv (keys : List SortingKey) (s : SourceStream) (out : OutputBuf)
    (hinv : StreamInv keys s) :
    StreamInv keys (copyToOutput s out).1 ∧ ((copyToOutput s out).1).outputRows = []
      ∧ ((copyToOutput s out).1).future = s.future := by
  rw [copyToOutput_fst]
  refine ⟨⟨hinv.pendingNonempty, fun _ => rfl, hinv.atEnd_pending, hinv.cur_lt, ?_, ?_⟩,
    rfl, ?_⟩
  · intro hne
    simp only [List.length_nil, Nat.add_zero]
    by_cases he : s.outputRows.isEmpty
    · rw [if_pos he]
      have h0 : s.outputRows.length = 0 := by
        rw [List.isEmpty_iff.mp he]; rfl
      have hfa := hinv.first_add hne
      omega
    · rw [if_neg he]
      have hfa := hinv.first_add hne
      have hcl := hinv.cur_lt hne
      rw [if_neg (by omega)]
      omega
  · intro hne
    by_cases he : s.outputRows.isEmpty
    · rw [if_pos he]
      exact hinv.sortedTail hne
    · rw [if_neg he]
      have hfa := hinv.first_add hne
      have hcl := hinv.cur_lt hne
      rw [if_neg (by omega)]
      have hdrop : s.data.drop (s.firstSourceRow + s.outputRows.length)
          = (s.data.drop s.firstSourceRow).drop s.outputRows.length :=
        (List.drop_drop s.outputRows.length s.firstSourceRow s.data).symm
      rw [hdrop]
      exact List.Pairwise.sublist ((List.drop_sublist _ _).append_right _)
        (hinv.sortedTail hne)
  · simp [SourceStream.future]

theorem copyAll_spec (keys : List SortingKey) (committed : List Row) :
    ∀ (streams : List SourceStream) (out : OutputBuf),
    (∀ s ∈ streams, StreamInv keys s) →
    (∀ s ∈ streams, s.outputRows.Nodup) →
    (∀ s ∈ streams, ∀ k j, s.outputRows[k]? = some j →
        j < out.length ∧ committed[j]? = some (s.data.getD (s.firstSourceRow + k) [])) →
    ((copyAllToOutput streams out).2).length = out.length ∧
    (∀ j, countOwners streams j = 0 → ((copyAllToOutput streams out).2)[j]? = out[j]?) ∧
    (∀ j, 0 < countOwners streams j →
        ((copyAllToOutput streams out).2)[j]? = some (some (committed.getD j []))) ∧
    (∀ s' ∈ (copyAllToOutput streams out).1, StreamInv keys s' ∧ s'.outputRows = []) ∧
    ((copyAllToOutput streams out).1).map SourceStream.future
        = streams.map SourceStream.future ∧
    ((copyAllToOutput streams out).1).length = streams.length := by
  intro streams
  induction streams with
  | nil =>
    intro out _ _ _
    refine ⟨rfl, fun j _ => rfl, ?_, by simp [copyAllToOutput], by simp [copyAllToOutput],
      rfl⟩
    intro j hj
    rw [countOwners] at hj
    simp at hj
  | cons s rest ih =>
    intro out hsinv hnd hvals
    obtain ⟨hs_inv, hs_sel, hs_fut⟩ :=
      copyToOutput_fst_inv keys s out (hsinv s (List.mem_cons_self s rest))
    have hlen1 : (copyToOutput s out).2.length = out.length := copyToOutput_snd_length s out
    have hrest_inv : ∀ u ∈ rest, StreamInv keys u :=
      fun u hu => hsinv u (List.mem_cons_of_mem s hu)
    have hrest_nd : ∀ u ∈ rest, u.outputRows.Nodup :=
      fun u hu => hnd u (List.mem_cons_of_mem s hu)
    have hrest_vals : ∀ u ∈ rest, ∀ k j, u.outputRows[k]? = some j →
        j < (copyToOutput s out).2.length
          ∧ committed[j]? = some (u.data.getD (u.firstSourceRow + k) []) := by
      intro u hu k j hk
      obtain ⟨h1, h2⟩ := hvals u (List.mem_cons_of_mem s hu) k j hk
      exact ⟨by omega, h2⟩
    obtain ⟨ihlen, ihz, ihpos, ihflush, ihfut, ihslen⟩ :=
      ih (copyToOutput s out).2 hrest_inv hrest_nd hrest_vals
    have hmem_val : ∀ j ∈ s.outputRows,
        (copyToOutput s out).2[j]? = some (some (committed.getD j [])) := by
      intro j hj
      obtain ⟨k, hk⟩ := List.mem_iff_getElem?.mp hj
      obtain ⟨h1, h2⟩ := hvals s (List.mem_cons_self s rest) k j hk
      have hv : committed.getD j [] = s.data.getD (s.firstSourceRow + k) [] := by
        rw [List.getD_eq_getElem?_getD, h2]
        rfl
      rw [copyToOutput_snd_mem s out k j (hnd s (List.mem_cons_self s rest)) hk h1, hv]
    have hcall : copyAllToOutput (s :: rest) out
        = ((copyToOutput s out).1 :: (copyAllToOutput rest (copyToOutput s out).2).1,
           (copyAllToOutput rest (copyToOutput s out).2).2) := rfl
    rw [hcall]
    refine ⟨by simpa [ihlen] using hlen1, ?_, ?_, ?_, ?_, by simpa using ihslen⟩
    · intro j hj
      rw [countOwners_cons] at hj
      have hjs : j ∉ s.outputRows := by
        by_contra hmem
        simp [hmem] at hj
      have hjr : countOwners rest j = 0 := by
        by_cases hmem : j ∈ s.outputRows
        · exact absurd hmem hjs
        · simp [hmem] at hj; exact hj
      rw [ihz j hjr]
      exact copyToOutput_snd_not_mem s out j hjs
    · intro j hj
      rw [countOwners_cons] at hj
      by_cases hr : 0 < countOwners rest j
      · exact ihpos j hr
      · have hjs : j ∈ s.outputRows := by
          by_contra hmem
          simp [hmem] at hj
          omega
        have hz : countOwners rest j = 0 := by omega
        rw [ihz j hz]
        exact hmem_val j hjs
    · intro s' hs'
      rcases List.mem_cons.mp hs' with rfl | hs'
      · exact ⟨hs_inv, hs_sel⟩
      · exact ihflush s' hs'
    · simp only [List.map_cons]
      rw [hs_fut, ihfut]

/-! ### Step lemmas for the merge loop -/

theorem remainingRows_eq_zero (st : MergeState)
    (h : ∀ s ∈ st.streams, s.atEnd = true) : remainingRows st = 0 := by
  unfold remainingRows
  rw [List.sum_eq_zero_iff]
  intro x hx
  obtain ⟨s, hs, rfl⟩ := List.mem_map.mp hx
  rw [future_atEnd s (h s hs)]
  rfl

theorem remainingRows_pos (st : MergeState) (s : SourceStream) (hs : s ∈ st.streams)
    (hne : s.atEnd = false) (hcur : s.currentSourceRow < s.data.length) :
    0 < remainingRows st := by
  unfold remainingRows
  have hmem : s.future.length ∈ st.streams.map (fun u => u.future.length) :=
    List.mem_map.mpr ⟨s, hs, rfl⟩
  have hpos : 0 < s.future.length := by
    rw [future_eq_cons s hne hcur]
    simp
  calc 0 < s.future.length := hpos
    _ ≤ (st.streams.map (fun u => u.future.length)).sum := List.single_le_sum (by simp) _ hmem

theorem mergeIter_finish (keys : List SortingKey) (B : Nat) (st : MergeState)
    (emitted committed : List Row) (inv : LoopInv keys B st emitted committed)
    (hlt : st.outputSize < B)
    (hpick : pickMinAux keys st.streams = none) :
    remainingRows st = 0 ∧
    mergeIter keys B st
      = some (.ret { st with finished := true }
          (if st.outputSize = 0 then none else some committed)) ∧
    (st.outputSize = 0 → committed = []) := by
  have hend := (pickMinAux_eq_none keys st.streams).mp hpick
  have hrem := remainingRows_eq_zero st hend
  have hcnt : ∀ j, countOwners st.streams j = 0 := fun j =>
    (countOwners_eq_zero _ j).mpr (fun s hs => by
      rw [(inv.sinv s hs).atEnd_sel (hend s hs)]
      exact List.not_mem_nil j)
  have hres : st.outputSize ≠ 0 → resizeOut st.output st.outputSize = committed := by
    intro h0
    refine resizeOut_eq st.output committed st.outputSize ?_ inv.commLen ?_
    · rw [inv.outLen]; omega
    · intro j hj
      exact inv.slotCopied j hj (hcnt j)
  refine ⟨hrem, ?_, ?_⟩
  · unfold mergeIter
    rw [hpick]
    by_cases h0 : st.outputSize = 0
    · rw [if_pos h0, if_pos h0]
    · rw [if_neg h0, if_neg h0, hres h0]
  · intro h0
    have hc := inv.commLen
    rw [h0] at hc
    exact List.length_eq_zero.mp hc

theorem fetchMoreData_inv (keys : List SortingKey) (s : SourceStream)
    (hsel : s.outputRows = []) (hfirst : s.firstSourceRow = 0)
    (hpn : ∀ b ∈ s.pending, b ≠ [])
    (hsorted : s.pending.flatten.Pairwise (rowLe keys)) :
    StreamInv keys (fetchMoreData s) ∧ (fetchMoreData s).outputRows = [] ∧
      (fetchMoreData s).future = s.pending.flatten := by
  cases hp : s.pending with
  | nil =>
    simp only [fetchMoreData, hp]
    refine ⟨⟨?_, fun _ => hsel, fun _ => rfl, ?_, ?_, ?_⟩, hsel, ?_⟩
    · intro b hb; exact absurd hb (List.not_mem_nil b)
    · intro h; simp at h
    · intro h; simp at h
    · intro h; simp at h
    · rw [future_atEnd _ rfl]
      rfl
  | cons b rest =>
    have hbne : b ≠ [] := hpn b (by rw [hp]; exact List.mem_cons_self b rest)
    have hbe : b.isEmpty = false := by
      cases b
      · exact absurd rfl hbne
      · rfl
    simp only [fetchMoreData, hp]
    refine ⟨⟨?_, ?_, ?_, ?_, ?_, ?_⟩, hsel, ?_⟩
    · intro u hu
      exact hpn u (by rw [hp]; exact List.mem_cons_of_mem b hu)
    · intro h; rw [hbe] at h; exact Bool.noConfusion h
    · intro h; rw [hbe] at h; exact Bool.noConfusion h
    · intro _
      simpa using List.length_pos.mpr hbne
    · intro _
      simp [hsel, hfirst]
    · intro _
      simp only [hfirst, List.drop_zero]
      rw [hp, List.flatten_cons] at hsorted
      exact hsorted
    · rw [future_not_atEnd _ (by simpa using hbe)]
      simp only [hfirst, List.drop_zero]
      exact List.flatten_cons.symm

theorem mergeIter_some_red (keys : List SortingKey) (B : Nat) (st : MergeState)
    (i : Nat) (w : SourceStream)
    (hpick : pickMinAux keys st.streams = some (i, w)) :
    mergeIter keys B st =
      (let p := setOutputRow w st.outputSize
       let q := if p.2 then copyToOutput p.1 st.output else (p.1, st.output)
       match q.1.pop with
       | none => none
       | some w' =>
         if st.outputSize + 1 = B then
           some (.ret { streams := (copyAllToOutput (st.streams.set i w') q.2).1,
                        output := [], outputSize := 0, finished := st.finished }
             (some (resizeOut (copyAllToOutput (st.streams.set i w') q.2).2 B)))
         else
           some (.again { streams := st.streams.set i w', output := q.2,
                          outputSize := st.outputSize + 1, finished := st.finished })) := by
  unfold mergeIter
  rw [hpick]

theorem future_mem_of_map_eq (l₁ l₂ : List SourceStream)
    (h : l₁.map SourceStream.future = l₂.map SourceStream.future)
    (s : SourceStream) (hs : s ∈ l₁) : ∃ u ∈ l₂, u.future = s.future := by
  obtain ⟨n, hn⟩ := List.mem_iff_getElem?.mp hs
  have h1 : (l₁.map SourceStream.future)[n]? = some s.future := by
    rw [List.getElem?_map, hn]
    rfl
  rw [h, List.getElem?_map] at h1
  cases hu : l₂[n]? with
  | none => rw [hu] at h1; simp at h1
  | some u =>
    rw [hu] at h1
    simp at h1
    exact ⟨u, List.mem_iff_getElem?.mpr ⟨n, hu⟩, h1⟩

/-- One row-moving iteration of the merge loop: from a state satisfying the
loop invariant in which the tournament yields winner `w`, the iteration
commits `w`'s current row to the next slot, preserves the invariant, consumes
exactly one remaining row, and either keeps looping or emits the full batch
(which then consists exactly of the committed rows). -/
theorem mergeIter_step (keys : List SortingKey) (B : Nat) (st : MergeState)
    (emitted committed : List Row) (inv : LoopInv keys B st emitted committed)
    (hlt : st.outputSize < B) (i : Nat) (w : SourceStream)
    (hpick : pickMinAux keys st.streams = some (i, w)) :
    ∃ st₁ : MergeState,
      LoopInv keys B st₁ emitted (committed ++ [w.current]) ∧
      st₁.outputSize = st.outputSize + 1 ∧
      st₁.streams.length = st.streams.length ∧
      st₁.streams.map SourceStream.future
        = (st.streams.map SourceStream.future).set i w.future.tail ∧
      remainingRows st₁ + 1 = remainingRows st ∧
      ((st.outputSize + 1 ≠ B ∧ mergeIter keys B st = some (.again st₁)) ∨
       (st.outputSize + 1 = B ∧
        ∃ st₂ : MergeState,
          mergeIter keys B st = some (.ret st₂ (some (committed ++ [w.current]))) ∧
          BoundaryInv keys st₂ (emitted ++ committed ++ [w.current]) ∧
          st₂.streams.length = st.streams.length ∧
          st₂.streams.map SourceStream.future = st₁.streams.map SourceStream.future)) := by
  obtain ⟨hw, hwne, hmin⟩ := pickMinAux_spec keys st.streams i w hpick
  have hwmem : w ∈ st.streams := List.mem_iff_getElem?.mpr ⟨i, hw⟩
  have winv := inv.sinv w hwmem
  have hcur : w.currentSourceRow < w.data.length := winv.cur_lt hwne
  have hfa : w.firstSourceRow + w.outputRows.length = w.currentSourceRow :=
    winv.first_add hwne
  have hwnd : w.outputRows.Nodup := inv.nodup w hwmem
  -- the winner's current row: below every remaining row of every stream
  have hrmin : ∀ s ∈ st.streams, ∀ y ∈ s.future, rowLe keys w.current y := by
    intro s hs y hy
    cases hsend : s.atEnd
    · have hle : rowLe keys w.current s.current :=
        le_of_streamLt_false keys s w (hmin s hs hsend)
      exact rowLe_trans keys hle (current_le_future keys s (inv.sinv s hs) hsend y hy)
    · rw [future_atEnd s hsend] at hy
      exact absurd hy (List.not_mem_nil y)
  have hrfut : w.current ∈ w.future := current_mem_future w hwne hcur
  have hrle : ∀ x ∈ emitted ++ committed, rowLe keys x w.current :=
    fun x hx => inv.lowBound x hx w hwmem w.current hrfut
  have hslot_not : ∀ s ∈ st.streams, st.outputSize ∉ s.outputRows := by
    intro s hs hmem
    exact absurd (inv.ownerLt s hs st.outputSize hmem) (by omega)
  have hsorted' : (emitted ++ (committed ++ [w.current])).Pairwise (rowLe keys) := by
    rw [← List.append_assoc, List.pairwise_append]
    refine ⟨inv.sortedEm, List.pairwise_singleton _ w.current, ?_⟩
    intro x hx b hb
    rw [List.mem_singleton] at hb
    subst hb
    exact hrle x hx
  have hcomm_slot : (committed ++ [w.current])[st.outputSize]? = some w.current := by
    rw [show st.outputSize = committed.length from inv.commLen.symm]
    exact List.getElem?_concat_length committed w.current
  have hgetD : ∀ j, j < committed.length →
      (committed ++ [w.current]).getD j [] = committed.getD j [] := by
    intro j hj
    rw [List.getD_eq_getElem?_getD, List.getD_eq_getElem?_getD,
      List.getElem?_append_left hj]
  -- split of the stream list at the winner
  have hsplit := list_split st.streams i w hw
  have hseteq : ∀ w'' : SourceStream, st.streams.set i w''
      = st.streams.take i ++ w'' :: st.streams.drop (i + 1) :=
    fun w'' => list_set_split st.streams i w w'' hw
  have hmemold : ∀ u : SourceStream,
      u ∈ st.streams.take i ∨ u ∈ st.streams.drop (i + 1) → u ∈ st.streams := by
    intro u hu
    rw [hsplit]
    rcases hu with h | h
    · exact List.mem_append_left _ h
    · exact List.mem_append_right _ (List.mem_cons_of_mem w h)
  have hcount_split : ∀ j, countOwners st.streams j
      = countOwners (st.streams.take i) j + (if j ∈ w.outputRows then 1 else 0)
        + countOwners (st.streams.drop (i + 1)) j := by
    intro j
    conv_lhs => rw [hsplit]
    rw [countOwners_append, countOwners_cons]
    omega
  have hcount_new : ∀ (w'' : SourceStream) (j : Nat), countOwners (st.streams.set i w'') j
      = countOwners (st.streams.take i) j + (if j ∈ w''.outputRows then 1 else 0)
        + countOwners (st.streams.drop (i + 1)) j := by
    intro w'' j
    rw [hseteq w'', countOwners_append, countOwners_cons]
    omega
  have hmem_new : ∀ (w'' u : SourceStream), u ∈ st.streams.set i w''
      → u = w'' ∨ u ∈ st.streams := by
    intro w'' u hu
    rw [hseteq w''] at hu
    rcases List.mem_append.mp hu with h | h
    · right; exact hmemold u (Or.inl h)
    · rcases List.mem_cons.mp h with rfl | h
      · left; rfl
      · right; exact hmemold u (Or.inr h)
  -- the marked winner and the slot-value relation for it
  have hw₁nd : (w.outputRows ++ [st.outputSize]).Nodup := by
    rw [List.nodup_append]
    refine ⟨hwnd, List.nodup_singleton _, ?_⟩
    intro a ha hb
    rw [List.mem_singleton] at hb
    subst hb
    exact hslot_not w hwmem ha
  have hval₁ : ∀ k j, (w.outputRows ++ [st.outputSize])[k]? = some j →
      j < st.output.length ∧ (committed ++ [w.current])[j]?
        = some (w.data.getD (w.firstSourceRow + k) []) := by
    intro k j hk
    by_cases hkl : k < w.outputRows.length
    · rw [List.getElem?_append_left hkl] at hk
      have hjmem : j ∈ w.outputRows := List.mem_iff_getElem?.mpr ⟨k, hk⟩
      have hjlt : j < st.outputSize := inv.ownerLt w hwmem j hjmem
      refine ⟨by rw [inv.outLen]; omega, ?_⟩
      rw [List.getElem?_append_left (by rw [inv.commLen]; omega)]
      exact inv.slotVal w hwmem k j hk
    · have hk_eq : k = w.outputRows.length := by
        by_contra hne
        rw [List.getElem?_eq_none (by simp; omega)] at hk
        exact Option.noConfusion hk
      subst hk_eq
      rw [List.getElem?_concat_length] at hk
      obtain rfl : st.outputSize = j := Option.some.inj hk
      refine ⟨by rw [inv.outLen]; omega, ?_⟩
      rw [hcomm_slot, hfa]
      rfl
  -- the two shapes of the iteration
  have main : ∃ (w' : SourceStream) (out₁ : OutputBuf),
      mergeIter keys B st =
        (if st.outputSize + 1 = B then
          some (.ret { streams := (copyAllToOutput (st.streams.set i w') out₁).1,
                       output := [], outputSize := 0, finished := st.finished }
            (some (resizeOut (copyAllToOutput (st.streams.set i w') out₁).2 B)))
        else
          some (.again { streams := st.streams.set i w', output := out₁,
                         outputSize := st.outputSize + 1, finished := st.finished })) ∧
      LoopInv keys B { streams := st.streams.set i w', output := out₁,
                       outputSize := st.outputSize + 1, finished := st.finished }
        emitted (committed ++ [w.current]) ∧
      w'.future = w.future.tail := by
    by_cases hlast : w.currentSourceRow + 1 = w.data.length
    · -- the winner sits on the last row of its batch: flush, then fetch
      have hfst1 : (copyToOutput { w with outputRows := w.outputRows ++ [st.outputSize] }
          st.output).1 = { w with outputRows := [], firstSourceRow := 0 } := by
        rw [copyToOutput_fst]
        have hcond : w.firstSourceRow + (w.outputRows ++ [st.outputSize]).length
            = w.data.length := by
          simp only [List.length_append, List.length_singleton]
          omega
        rw [if_neg (by simp [List.isEmpty_iff]), if_pos hcond]
      have hflat_sorted : w.pending.flatten.Pairwise (rowLe keys) :=
        List.Pairwise.sublist (List.sublist_append_right _ _) (winv.sortedTail hwne)
      obtain ⟨hw'inv, hw'rows, hw'fut0⟩ := fetchMoreData_inv keys
        { w with outputRows := [], firstSourceRow := 0, currentSourceRow := w.currentSourceRow + 1 }
        rfl rfl winv.pendingNonempty hflat_sorted
      have htail : w.future.tail = w.pending.flatten := by
        rw [future_eq_cons w hwne hcur, List.tail_cons, hlast, List.drop_length]
        rfl
      have hw'fut : (fetchMoreData { w with outputRows := [], firstSourceRow := 0, currentSourceRow := w.currentSourceRow + 1 }).future = w.future.tail := by
        rw [hw'fut0, htail]
      have hpop : SourceStream.pop ({ w with outputRows := [], firstSourceRow := 0 }
          : SourceStream) = some (fetchMoreData { w with outputRows := [], firstSourceRow := 0, currentSourceRow := w.currentSourceRow + 1 }) := by
        simp only [SourceStream.pop]
        rw [if_pos hlast]
        rfl
      refine ⟨fetchMoreData { w with outputRows := [], firstSourceRow := 0, currentSourceRow := w.currentSourceRow + 1 },
        (copyToOutput { w with outputRows := w.outputRows ++ [st.outputSize] }
          st.output).2, ?_, ?_, hw'fut⟩
      · -- reduction of mergeIter
        rw [mergeIter_some_red keys B st i w hpick]
        simp only [setOutputRow]
        rw [if_pos (decide_eq_true hlast), hfst1, hpop]
      · -- the loop invariant after the iteration
        have hout1len : (copyToOutput { w with outputRows := w.outputRows ++ [st.outputSize] }
            st.output).2.length = B := by
          rw [copyToOutput_snd_length]
          exact inv.outLen
        have hbuf_mem : ∀ j ∈ w.outputRows ++ [st.outputSize],
            (copyToOutput { w with outputRows := w.outputRows ++ [st.outputSize] }
              st.output).2[j]? = some (some ((committed ++ [w.current]).getD j [])) := by
          intro j hj
          obtain ⟨k, hk⟩ := List.mem_iff_getElem?.mp hj
          obtain ⟨hjlen, hcv⟩ := hval₁ k j hk
          have hvv : (committed ++ [w.current]).getD j []
              = w.data.getD (w.firstSourceRow + k) [] := by
            rw [List.getD_eq_getElem?_getD, hcv]
            rfl
          rw [copyToOutput_snd_mem _ st.output k j hw₁nd hk hjlen, hvv]
        have hbuf_not : ∀ j, j ∉ w.outputRows ++ [st.outputSize] →
            (copyToOutput { w with outputRows := w.outputRows ++ [st.outputSize] }
              st.output).2[j]? = st.output[j]? := by
          intro j hj
          exact copyToOutput_snd_not_mem _ st.output j hj
        refine ⟨?_, ?_, ?_, ?_, ?_, ?_, ?_, ?_, ?_, ?_, ?_, ?_⟩ <;> (try dsimp only)
        · exact hout1len
        · omega
        · simp [inv.commLen]
        · exact inv.notFin
        · intro u hu
          rcases hmem_new _ u hu with rfl | hu
          · exact hw'inv
          · exact inv.sinv u hu
        · intro u hu
          rcases hmem_new _ u hu with rfl | hu
          · rw [hw'rows]; exact List.nodup_nil
          · exact inv.nodup u hu
        · intro u hu j hj
          rcases hmem_new _ u hu with rfl | hu
          · rw [hw'rows] at hj; exact absurd hj (List.not_mem_nil j)
          · have := inv.ownerLt u hu j hj
            omega
        · intro j
          have hz : (if j ∈ (fetchMoreData { w with outputRows := [], firstSourceRow := 0, currentSourceRow := w.currentSourceRow + 1 }).outputRows then 1 else 0) = 0 := by
            rw [hw'rows]
            simp
          rw [hcount_new _ j, hz]
          have h1 := inv.ownersLe j
          rw [hcount_split j] at h1
          omega
        · intro u hu k j hk
          rcases hmem_new _ u hu with rfl | hu
          · rw [hw'rows] at hk; simp at hk
          · have hjmem : j ∈ u.outputRows := List.mem_iff_getElem?.mpr ⟨k, hk⟩
            have hjlt : j < st.outputSize := inv.ownerLt u hu j hjmem
            rw [List.getElem?_append_left (by rw [inv.commLen]; omega)]
            exact inv.slotVal u hu k j hk
        · intro j hj hz
          by_cases hjw : j ∈ w.outputRows ++ [st.outputSize]
          · exact hbuf_mem j hjw
          · have hjw0 : j ∉ w.outputRows := fun h => hjw (List.mem_append_left _ h)
            have hjs : j ≠ st.outputSize := by
              intro h
              exact hjw (by rw [h]; exact List.mem_append_right _ (List.mem_singleton.mpr rfl))
            have hjlt : j < st.outputSize := by omega
            rw [hcount_new _ j] at hz
            have hold : countOwners st.streams j = 0 := by
              rw [hcount_split j, if_neg hjw0]
              omega
            have hsc := inv.slotCopied j hjlt hold
            rw [hbuf_not j hjw, hsc, hgetD j (by rw [inv.commLen]; omega)]
        · exact hsorted'
        · intro x hx u hu y hy
          rw [← List.append_assoc] at hx
          rcases List.mem_append.mp hx with hx | hx
          · rcases hmem_new _ u hu with rfl | hu
            · rw [hw'fut] at hy
              exact inv.lowBound x hx w hwmem y (List.mem_of_mem_tail hy)
            · exact inv.lowBound x hx u hu y hy
          · rw [List.mem_singleton] at hx
            subst hx
            rcases hmem_new _ u hu with rfl | hu
            · rw [hw'fut] at hy
              exact hrmin w hwmem y (List.mem_of_mem_tail hy)
            · exact hrmin u hu y hy
    · -- the winner stays inside its batch
      have hcurlt : w.currentSourceRow + 1 < w.data.length := by omega
      have hw'ne : ({ w with outputRows := w.outputRows ++ [st.outputSize], currentSourceRow := w.currentSourceRow + 1 } : SourceStream).atEnd = false := hwne
      have hw'inv : StreamInv keys { w with outputRows := w.outputRows ++ [st.outputSize], currentSourceRow := w.currentSourceRow + 1 } := by
        refine ⟨winv.pendingNonempty, ?_, ?_, ?_, ?_, ?_⟩
        · intro h; rw [hw'ne] at h; exact Bool.noConfusion h
        · intro h; rw [hw'ne] at h; exact Bool.noConfusion h
        · intro _; exact hcurlt
        · intro _
          simp only [List.length_append, List.length_singleton]
          omega
        · intro _
          exact winv.sortedTail hwne
      have hw'fut : ({ w with outputRows := w.outputRows ++ [st.outputSize], currentSourceRow := w.currentSourceRow + 1 } : SourceStream).future
          = w.future.tail := by
        rw [future_eq_cons w hwne hcur, List.tail_cons, future_not_atEnd _ hw'ne]
      have hpop : SourceStream.pop ({ w with outputRows := w.outputRows ++ [st.outputSize] }
          : SourceStream) = some { w with outputRows := w.outputRows ++ [st.outputSize], currentSourceRow := w.currentSourceRow + 1 } := by
        simp only [SourceStream.pop]
        rw [if_neg hlast]
      refine ⟨{ w with outputRows := w.outputRows ++ [st.outputSize], currentSourceRow := w.currentSourceRow + 1 }, st.output, ?_, ?_, hw'fut⟩
      · rw [mergeIter_some_red keys B st i w hpick]
        simp only [setOutputRow]
        rw [if_neg (by simp [hlast]), hpop]
      · refine ⟨?_, ?_, ?_, ?_, ?_, ?_, ?_, ?_, ?_, ?_, ?_, ?_⟩ <;> (try dsimp only)
        · exact inv.outLen
        · omega
        · simp [inv.commLen]
        · exact inv.notFin
        · intro u hu
          rcases hmem_new _ u hu with rfl | hu
          · exact hw'inv
          · exact inv.sinv u hu
        · intro u hu
          rcases hmem_new _ u hu with rfl | hu
          · exact hw₁nd
          · exact inv.nodup u hu
        · intro u hu j hj
          rcases hmem_new _ u hu with rfl | hu
          · rcases List.mem_append.mp hj with h | h
            · have := inv.ownerLt w hwmem j h
              omega
            · rw [List.mem_singleton] at h
              omega
          · have := inv.ownerLt u hu j hj
            omega
        · intro j
          rw [hcount_new _ j]
          have h1 := inv.ownersLe j
          rw [hcount_split j] at h1
          by_cases hjs : j = st.outputSize
          · have hA : countOwners (st.streams.take i) st.outputSize = 0 :=
              (countOwners_eq_zero _ st.outputSize).mpr
                (fun u hu => hslot_not u (hmemold u (Or.inl hu)))
            have hB2 : countOwners (st.streams.drop (i + 1)) st.outputSize = 0 :=
              (countOwners_eq_zero _ st.outputSize).mpr
                (fun u hu => hslot_not u (hmemold u (Or.inr hu)))
            rw [hjs, hA, hB2]
            split <;> omega
          · have hmemiff : (j ∈ w.outputRows ++ [st.outputSize]) ↔ j ∈ w.outputRows := by
              rw [List.mem_append, List.mem_singleton]
              exact ⟨fun h => h.resolve_right hjs, Or.inl⟩
            by_cases hjw : j ∈ w.outputRows
            · rw [if_pos (by simpa [hmemiff] using hjw)]
              rw [if_pos hjw] at h1
              omega
            · rw [if_neg (by simpa [hmemiff] using hjw)]
              rw [if_neg hjw] at h1
              omega
        · intro u hu k j hk
          rcases hmem_new _ u hu with rfl | hu
          · exact (hval₁ k j hk).2
          · have hjmem : j ∈ u.outputRows := List.mem_iff_getElem?.mpr ⟨k, hk⟩
            have hjlt : j < st.outputSize := inv.ownerLt u hu j hjmem
            rw [List.getElem?_append_left (by rw [inv.commLen]; omega)]
            exact inv.slotVal u hu k j hk
        · intro j hj hz
          rw [hcount_new _ j] at hz
          have hjs : j ≠ st.outputSize := by
            intro h
            subst h
            rw [if_pos (List.mem_append_right _ (List.mem_singleton.mpr rfl))] at hz
            omega
          have hjlt : j < st.outputSize := by omega
          have hmemiff : (j ∈ w.outputRows ++ [st.outputSize]) ↔ j ∈ w.outputRows := by
            rw [List.mem_append, List.mem_singleton]
            exact ⟨fun h => h.resolve_right hjs, Or.inl⟩
          have hold : countOwners st.streams j = 0 := by
            rw [hcount_split j]
            by_cases hjw : j ∈ w.outputRows
            · rw [if_pos (by simpa [hmemiff] using hjw)] at hz
              omega
            · rw [if_neg (by simpa [hmemiff] using hjw)] at hz
              rw [if_neg hjw]
              omega
          have hsc := inv.slotCopied j hjlt hold
          rw [hsc, hgetD j (by rw [inv.commLen]; omega)]
        · exact hsorted'
        · intro x hx u hu y hy
          rw [← List.append_assoc] at hx
          rcases List.mem_append.mp hx with hx | hx
          · rcases hmem_new _ u hu with rfl | hu
            · rw [hw'fut] at hy
              exact inv.lowBound x hx w hwmem y (List.mem_of_mem_tail hy)
            · exact inv.lowBound x hx u hu y hy
          · rw [List.mem_singleton] at hx
            subst hx
            rcases hmem_new _ u hu with rfl | hu
            · rw [hw'fut] at hy
              exact hrmin w hwmem y (List.mem_of_mem_tail hy)
            · exact hrmin u hu y hy
  obtain ⟨w', out₁, hred, inv₁, hfut'⟩ := main
  have hwfl : w.future.length = w.future.tail.length + 1 := by
    rw [future_eq_cons w hwne hcur]
    simp
  refine ⟨{ streams := st.streams.set i w', output := out₁,
            outputSize := st.outputSize + 1, finished := st.finished },
    inv₁, rfl, by simp, ?_, ?_, ?_⟩
  · show (st.streams.set i w').map SourceStream.future
      = (st.streams.map SourceStream.future).set i w.future.tail
    rw [List.map_set, hfut']
  · show remainingRows { streams := st.streams.set i w', output := out₁, outputSize := st.outputSize + 1, finished := st.finished } + 1 = remainingRows st
    have hsum := sumFutures_set st.streams i w w' hw
    rw [hfut'] at hsum
    unfold remainingRows
    dsimp only
    omega
  · by_cases hB : st.outputSize + 1 = B
    · right
      refine ⟨hB, ?_⟩
      have hvals₂ : ∀ s ∈ st.streams.set i w', ∀ k j, s.outputRows[k]? = some j →
          j < out₁.length ∧ (committed ++ [w.current])[j]?
            = some (s.data.getD (s.firstSourceRow + k) []) := by
        intro u hu k j hk
        have hjmem : j ∈ u.outputRows := List.mem_iff_getElem?.mpr ⟨k, hk⟩
        have hjlt : j < st.outputSize + 1 := inv₁.ownerLt u hu j hjmem
        have houtlen : out₁.length = B := inv₁.outLen
        refine ⟨by omega, inv₁.slotVal u hu k j hk⟩
      obtain ⟨clen, cz, cpos, cflush, cfut, cslen⟩ :=
        copyAll_spec keys (committed ++ [w.current]) (st.streams.set i w') out₁
          inv₁.sinv inv₁.nodup hvals₂
      have hresize : resizeOut (copyAllToOutput (st.streams.set i w') out₁).2 B
          = committed ++ [w.current] := by
        refine resizeOut_eq _ _ B (by rw [clen, inv₁.outLen]) (by simp [inv.commLen]; omega) ?_
        intro j hj
        by_cases hc : 0 < countOwners (st.streams.set i w') j
        · exact cpos j hc
        · have hz : countOwners (st.streams.set i w') j = 0 := by omega
          rw [cz j hz]
          exact inv₁.slotCopied j (show j < st.outputSize + 1 by omega) hz
      refine ⟨{ streams := (copyAllToOutput (st.streams.set i w') out₁).1, output := [],
                outputSize := 0, finished := st.finished }, ?_, ?_, ?_, ?_⟩
      · rw [hred, if_pos hB, hresize]
      · refine ⟨rfl, rfl, inv.notFin, ?_, ?_, ?_, ?_⟩
        · intro u hu
          exact (cflush u hu).1
        · intro u hu
          exact (cflush u hu).2
        · rw [List.append_assoc]
          exact hsorted'
        · intro x hx u hu y hy
          obtain ⟨u₁, hu₁, hufut⟩ := future_mem_of_map_eq _ _ cfut u hu
          rw [← hufut] at hy
          rw [List.append_assoc] at hx
          exact inv₁.lowBound x hx u₁ hu₁ y hy
      · show (copyAllToOutput (st.streams.set i w') out₁).1.length = st.streams.length
        rw [cslen]
        simp
      · exact cfut
    · left
      exact ⟨hB, by rw [hred, if_neg hB]⟩

theorem remaining_eq_of_future_map_eq (st₁ st₂ : MergeState)
    (h : st₁.streams.map SourceStream.future = st₂.streams.map SourceStream.future) :
    remainingRows st₁ = remainingRows st₂ := by
  unfold remainingRows
  have h1 : st₁.streams.map (fun s => s.future.length)
      = (st₁.streams.map SourceStream.future).map List.length := by
    rw [List.map_map]
    rfl
  have h2 : st₂.streams.map (fun s => s.future.length)
      = (st₂.streams.map SourceStream.future).map List.length := by
    rw [List.map_map]
    rfl
  rw [h1, h2, h]

/-- Full behavior of the loop of `Merge::getOutput` from any state satisfying
the loop invariant, given enough fuel: it returns, and the result is either
the finished-empty case, a final partial batch, or a full batch with the
boundary invariant re-established. -/
theorem getOutputLoop_spec (keys : List SortingKey) (B : Nat) :
    ∀ (fuel : Nat) (st : MergeState) (emitted committed : List Row),
    LoopInv keys B st emitted committed → st.outputSize < B →
    remainingRows st + 1 ≤ fuel →
    ∃ st' out, getOutputLoop keys B fuel st = some (st', out) ∧
      ((out = none ∧ st'.finished = true ∧ remainingRows st = 0 ∧ committed = []) ∨
       (∃ b, out = some b ∧ st'.finished = true ∧
          (emitted ++ b).Pairwise (rowLe keys) ∧
          b.length = committed.length + remainingRows st ∧ b.length ≤ B) ∨
       (∃ b, out = some b ∧ st'.finished = false ∧ b.length = B ∧
          BoundaryInv keys st' (emitted ++ b) ∧
          st'.streams.length = st.streams.length ∧
          remainingRows st' + B = remainingRows st + committed.length ∧
          remainingRows st' < remainingRows st)) := by
  intro fuel
  induction fuel with
  | zero => intro st emitted committed _ _ hf; omega
  | succ n ih =>
    intro st emitted committed inv hlt hf
    rcases hpick : pickMinAux keys st.streams with _ | ⟨i, w⟩
    · obtain ⟨hrem, hit, hcz⟩ := mergeIter_finish keys B st emitted committed inv hlt hpick
      by_cases h0 : st.outputSize = 0
      · refine ⟨{ st with finished := true }, none, ?_, Or.inl ⟨rfl, rfl, hrem, hcz h0⟩⟩
        simp only [getOutputLoop]
        rw [hit, if_pos h0]
      · refine ⟨{ st with finished := true }, some committed, ?_,
          Or.inr (Or.inl ⟨committed, rfl, rfl, inv.sortedEm, by omega, ?_⟩)⟩
        · simp only [getOutputLoop]
          rw [hit, if_neg h0]
        · have := inv.commLen
          omega
    · obtain ⟨st₁, inv₁, hsz, hslen, hfmap, hrem, hbr⟩ :=
        mergeIter_step keys B st emitted committed inv hlt i w hpick
      rcases hbr with ⟨hne, hit⟩ | ⟨hB, st₂, hit, binv, hslen₂, hfmap₂⟩
      · have hlt₁ : st₁.outputSize < B := by
          have := inv₁.sizeLe
          omega
        have hf₁ : remainingRows st₁ + 1 ≤ n := by omega
        obtain ⟨st', out, hloop, hcase⟩ :=
          ih st₁ emitted (committed ++ [w.current]) inv₁ hlt₁ hf₁
        refine ⟨st', out, ?_, ?_⟩
        · simp only [getOutputLoop]
          rw [hit]
          exact hloop
        · rcases hcase with ⟨h1, h2, h3, h4⟩ | ⟨b, h1, h2, h3, h4, h5⟩
            | ⟨b, h1, h2, h3, h4, h5, h6, h7⟩
          · exact absurd h4 (by simp)
          · refine Or.inr (Or.inl ⟨b, h1, h2, h3, ?_, h5⟩)
            simp only [List.length_append, List.length_singleton] at h4
            omega
          · refine Or.inr (Or.inr ⟨b, h1, h2, h3, h4, h5.trans hslen, ?_, by omega⟩)
            simp only [List.length_append, List.length_singleton] at h6
            omega
      · refine ⟨st₂, some (committed ++ [w.current]), ?_, ?_⟩
        · simp only [getOutputLoop]
          rw [hit]
        · have hrem₂ : remainingRows st₂ = remainingRows st₁ := by
            apply remaining_eq_of_future_map_eq
            exact hfmap₂
          have hcl := inv.commLen
          refine Or.inr (Or.inr ⟨committed ++ [w.current], rfl, binv.notFin, ?_,
            List.append_assoc emitted committed [w.current] ▸ binv, hslen₂, ?_, ?_⟩)
          · simp only [List.length_append, List.length_singleton]
            omega
          · omega
          · omega

theorem runMerge_finished (keys : List SortingKey) (B : Nat) (fuel : Nat)
    (st : MergeState) (h : st.finished = true) : runMerge keys B fuel st = some [] := by
  cases fuel with
  | zero => simp [runMerge, h]
  | succ n => simp [runMerge, h]

/-- Full behavior of the driver loop around `Merge::getOutput` for more than
one source: with enough fuel the run returns a batch list whose concatenation
is sorted, whose total length is the number of remaining rows, and whose
batches are each at most `B` rows. -/
theorem runMerge_spec (keys : List SortingKey) (B : Nat) (hB : 1 ≤ B) :
    ∀ (fuel : Nat) (st : MergeState) (emitted : List Row),
    BoundaryInv keys st emitted → 2 ≤ st.streams.length →
    remainingRows st + 2 ≤ fuel →
    ∃ batches, runMerge keys B fuel st = some batches ∧
      (emitted ++ batches.flatten).Pairwise (rowLe keys) ∧
      batches.flatten.length = remainingRows st ∧
      ∀ b ∈ batches, b.length ≤ B := by
  intro fuel
  induction fuel with
  | zero => intro st emitted _ _ hf; omega
  | succ n ih =>
    intro st emitted binv hN hf
    have hnotfin := binv.notFin
    have hne1 : st.streams.length ≠ 1 := by omega
    have inv₀ := loopInv_of_boundary keys B st emitted binv
    have hlt₀ : ({ st with output := List.replicate B none } : MergeState).outputSize < B := by
      show st.outputSize < B
      rw [binv.size0]
      omega
    have hrem₀ : remainingRows { st with output := List.replicate B none }
        = remainingRows st := rfl
    obtain ⟨st', out, hloop, hcase⟩ :=
      getOutputLoop_spec keys B (n + 1) { st with output := List.replicate B none }
        emitted [] inv₀ hlt₀ (by rw [hrem₀]; omega)
    have hgo : getOutput keys B (n + 1) st = some (st', out) := by
      unfold getOutput
      rw [if_neg (by simp [hnotfin]), if_neg hne1,
        if_pos (by rw [binv.outNil]; rfl)]
      exact hloop
    rcases hcase with ⟨h1, h2, h3, _⟩ | ⟨b, h1, h2, h3, h4, h5⟩
      | ⟨b, h1, h2, h3, h4, h5, h6, h7⟩
    · subst h1
      refine ⟨[], ?_, by simpa using binv.sortedEm, by rw [hrem₀] at h3; simp [h3], by simp⟩
      simp only [runMerge]
      rw [if_neg (by simp [hnotfin]), hgo]
      dsimp only
      rw [runMerge_finished keys B n st' h2]
      rfl
    · subst h1
      refine ⟨[b], ?_, ?_, ?_, ?_⟩
      · simp only [runMerge]
        rw [if_neg (by simp [hnotfin]), hgo]
        dsimp only
        rw [runMerge_finished keys B n st' h2]
        rfl
      · simpa using h3
      · rw [hrem₀] at h4
        simp [h4]
      · intro u hu
        rw [List.mem_singleton] at hu
        subst hu
        exact h5
    · subst h1
      rw [hrem₀] at h6 h7
      simp only [List.length_nil, Nat.add_zero] at h6
      have h5' : st'.streams.length = st.streams.length := h5
      obtain ⟨batches', hrun', hsorted', hlen', hsz'⟩ :=
        ih st' (emitted ++ b) h4 (by omega) (by omega)
      refine ⟨b :: batches', ?_, ?_, ?_, ?_⟩
      · simp only [runMerge]
        rw [if_neg (by simp [hnotfin]), hgo]
        dsimp only
        rw [hrun']
        rfl
      · rw [List.flatten_cons, ← List.append_assoc]
        exact hsorted'
      · rw [List.flatten_cons]
        simp only [List.length_append]
        omega
      · intro u hu
        rcases List.mem_cons.mp hu with rfl | hu
        · omega
        · exact hsz' u hu

theorem initStream_inv (keys : List SortingKey) (batches : List (List Row))
    (hne : ∀ b ∈ batches, b ≠ [])
    (hsorted : batches.flatten.Pairwise (rowLe keys)) :
    StreamInv keys (initStream batches) ∧ (initStream batches).outputRows = [] ∧
      (initStream batches).future = batches.flatten := by
  unfold initStream
  exact fetchMoreData_inv keys _ rfl rfl hne hsorted

theorem initMerge_boundary (keys : List SortingKey) (inputs : List (List (List Row)))
    (hN : inputs.length ≠ 1)
    (hne : ∀ input ∈ inputs, ∀ b ∈ input, b ≠ [])
    (hsorted : ∀ input ∈ inputs, input.flatten.Pairwise (rowLe keys)) :
    BoundaryInv keys (initMerge inputs) [] ∧
      remainingRows (initMerge inputs)
        = (inputs.map (fun input => input.flatten.length)).sum ∧
      (initMerge inputs).streams.length = inputs.length := by
  have hstreams : (initMerge inputs).streams = inputs.map initStream := by
    unfold initMerge
    rw [if_neg hN]
  have hmem : ∀ s ∈ (initMerge inputs).streams,
      ∃ input ∈ inputs, s = initStream input := by
    intro s hs
    rw [hstreams] at hs
    obtain ⟨input, hin, rfl⟩ := List.mem_map.mp hs
    exact ⟨input, hin, rfl⟩
  refine ⟨⟨rfl, rfl, rfl, ?_, ?_, List.Pairwise.nil, ?_⟩, ?_, ?_⟩
  · intro s hs
    obtain ⟨input, hin, rfl⟩ := hmem s hs
    exact (initStream_inv keys input (hne input hin) (hsorted input hin)).1
  · intro s hs
    obtain ⟨input, hin, rfl⟩ := hmem s hs
    exact (initStream_inv keys input (hne input hin) (hsorted input hin)).2.1
  · intro x hx
    exact absurd hx (List.not_mem_nil x)
  · unfold remainingRows
    rw [hstreams, List.map_map]
    congr 1
    apply List.map_congr_left
    intro input hin
    show (initStream input).future.length = input.flatten.length
    rw [(initStream_inv keys input (hne input hin) (hsorted input hin)).2.2]
  · rw [hstreams]
    simp

/-! ### Auxiliary lemmas for the claim statements -/

theorem keyCompareAt_cons_succ (k : SortingKey) (rest : List SortingKey)
    (n : Nat) (x y : Row) :
    keyCompareAt (k :: rest) (n + 1) x y = keyCompareAt rest n x y := by
  unfold keyCompareAt
  rw [List.getElem?_cons_succ]

theorem keyCompareAt_cons_zero (k : SortingKey) (rest : List SortingKey) (x y : Row) :
    keyCompareAt (k :: rest) 0 x y
      = compareValues k.flags (keyAt x k.channel) (keyAt y k.channel) := by
  unfold keyCompareAt
  rw [List.getElem?_cons_zero]

theorem rowLtB_iff_firstdiff (x y : Row) :
    ∀ keys : List SortingKey, rowLtB keys x y = true ↔
      ∃ n, n < keys.length ∧ (∀ m, m < n → keyCompareAt keys m x y = 0) ∧
        keyCompareAt keys n x y < 0 := by
  intro keys
  induction keys with
  | nil =>
    simp [rowLtB]
  | cons k rest ih =>
    simp only [rowLtB]
    by_cases hr : compareValues k.flags (keyAt x k.channel) (keyAt y k.channel) = 0
    · rw [if_pos hr, ih]
      constructor
      · rintro ⟨n, hn, hpre, hneg⟩
        refine ⟨n + 1, by simp; omega, ?_, by rw [keyCompareAt_cons_succ]; exact hneg⟩
        intro m hm
        cases m with
        | zero => rw [keyCompareAt_cons_zero]; exact hr
        | succ m' => rw [keyCompareAt_cons_succ]; exact hpre m' (by omega)
      · rintro ⟨n, hn, hpre, hneg⟩
        cases n with
        | zero =>
          rw [keyCompareAt_cons_zero] at hneg
          omega
        | succ n' =>
          rw [keyCompareAt_cons_succ] at hneg
          refine ⟨n', by simp at hn; omega, ?_, hneg⟩
          intro m hm
          have := hpre (m + 1) (by omega)
          rw [keyCompareAt_cons_succ] at this
          exact this
    · rw [if_neg hr]
      simp only [decide_eq_true_eq]
      constructor
      · intro h
        exact ⟨0, by simp, fun m hm => absurd hm (by omega),
          by rw [keyCompareAt_cons_zero]; exact h⟩
      · rintro ⟨n, hn, hpre, hneg⟩
        cases n with
        | zero =>
          rw [keyCompareAt_cons_zero] at hneg
          exact hneg
        | succ n' =>
          have := hpre 0 (by omega)
          rw [keyCompareAt_cons_zero] at this
          exact absurd this hr

theorem compareRows_eq_zero_of_all (x y : Row) :
    ∀ keys : List SortingKey,
    (∀ n, n < keys.length → keyCompareAt keys n x y = 0) →
    compareRows keys x y = 0 := by
  intro keys
  induction keys with
  | nil => intro _; rfl
  | cons k rest ih =>
    intro h
    have h0 := h 0 (by simp)
    rw [keyCompareAt_cons_zero] at h0
    simp only [compareRows]
    rw [if_pos h0]
    refine ih ?_
    intro n hn
    have := h (n + 1) (by simp; omega)
    rw [keyCompareAt_cons_succ] at this
    exact this

/-! ### Claim theorems -/

/-- C1: for every family of at least two key-compatible sorted input streams
with `R` total rows, all source batches non-empty, and every output batch
size `B ≥ 1`, the batches returned by the repeated `Merge::getOutput` calls
contain exactly `R` rows, their concatenation is sorted non-decreasingly
under the sort key list, and every batch holds at most `B` rows: full batches
are emitted when `outputSize_` reaches `outputBatchSize_` and the final
partial batch is resized to `outputSize_`. -/
theorem c1_merge_emits_all_rows_sorted_bounded (keys : List SortingKey) (B : Nat)
    (inputs : List (List (List Row)))
    (hN : 2 ≤ inputs.length) (hB : 1 ≤ B)
    (hne : ∀ input ∈ inputs, ∀ b ∈ input, b ≠ [])
    (hsorted : ∀ input ∈ inputs, input.flatten.Pairwise (rowLe keys)) :
    ∃ batches,
      runMerge keys B ((inputs.map (fun input => input.flatten.length)).sum + 2)
          (initMerge inputs) = some batches ∧
      batches.flatten.length = (inputs.map (fun input => input.flatten.length)).sum ∧
      batches.flatten.Pairwise (rowLe keys) ∧
      ∀ b ∈ batches, b.length ≤ B := by
  obtain ⟨binv, hrem, hlen⟩ := initMerge_boundary keys inputs (by omega) hne hsorted
  obtain ⟨batches, hrun, hsortedOut, hcount, hsizes⟩ :=
    runMerge_spec keys B hB ((inputs.map (fun input => input.flatten.length)).sum + 2)
      (initMerge inputs) [] binv (by omega) (by omega)
  refine ⟨batches, hrun, by omega, by simpa using hsortedOut, hsizes⟩

/-- Ascending single-column sort key used by the concrete scenarios. -/
def ascKey : List SortingKey :=
  [{ channel := 0, flags := { nullsFirst := true, ascending := true } }]

/-- A single-column row. -/
def rowOfInt (x : Int) : Row := [some x]

/-- Scenario 1 of the spec: A=[1,4,7], B=[2,5,8], C=[3,6,9]. -/
def scenarioInputs : List (List (List Row)) :=
  [[[rowOfInt 1, rowOfInt 4, rowOfInt 7]],
   [[rowOfInt 2, rowOfInt 5, rowOfInt 8]],
   [[rowOfInt 3, rowOfInt 6, rowOfInt 9]]]

theorem c1_witness :
    ∃ batches,
      runMerge ascKey 4 ((scenarioInputs.map (fun input => input.flatten.length)).sum + 2)
          (initMerge scenarioInputs) = some batches ∧
      batches.flatten.length
        = (scenarioInputs.map (fun input => input.flatten.length)).sum ∧
      batches.flatten.Pairwise (rowLe ascKey) ∧
      ∀ b ∈ batches, b.length ≤ 4 :=
  c1_merge_emits_all_rows_sorted_bounded ascKey 4 scenarioInputs (by decide) (by decide)
    (by decide) (by decide)

/-- C2: `SourceStream::operator<` returns true iff stream A's current row is
strictly less than stream B's under the sort key list, evaluating the keys
left to right and short-circuiting on the first key whose column compare is
non-zero; when the rows compare equal on every key, both `A < B` and `B < A`
return false — there is no tie-break on source identity. -/
theorem c2_streamLt_strict_lexicographic (keys : List SortingKey)
    (a b : SourceStream) :
    (streamLt keys a b = true ↔
      ∃ n, n < keys.length ∧
        (∀ m, m < n → keyCompareAt keys m a.current b.current = 0) ∧
        keyCompareAt keys n a.current b.current < 0) ∧
    ((∀ n, n < keys.length → keyCompareAt keys n a.current b.current = 0) →
      streamLt keys a b = false ∧ streamLt keys b a = false) := by
  constructor
  · exact rowLtB_iff_firstdiff a.current b.current keys
  · intro h
    have h0 : compareRows keys a.current b.current = 0 :=
      compareRows_eq_zero_of_all a.current b.current keys h
    have h0' : compareRows keys b.current a.current = 0 := by
      rw [compareRows_neg keys a.current b.current, h0]
      rfl
    unfold streamLt
    rw [rowLtB_eq_decide, rowLtB_eq_decide, h0, h0']
    simp

/-- An example cursor holding the single row `[1]`. -/
def exStream1 : SourceStream := { pending := [], data := [rowOfInt 1], currentSourceRow := 0, firstSourceRow := 0, outputRows := [], atEnd := false }

/-- An example cursor holding the single row `[2]`. -/
def exStream2 : SourceStream := { pending := [], data := [rowOfInt 2], currentSourceRow := 0, firstSourceRow := 0, outputRows := [], atEnd := false }

theorem c2_witness :
    (streamLt ascKey exStream1 exStream1 = false) ∧
    (streamLt ascKey exStream1 exStream2 = true) := by
  constructor
  · exact ((c2_streamLt_strict_lexicographic ascKey exStream1 exStream1).2 (by decide)).1
  · exact (c2_streamLt_strict_lexicographic ascKey exStream1 exStream2).1.mpr
      ⟨0, by decide, fun m hm => absurd hm (by omega), by decide⟩

/-- C4: `SourceStream::pop` advances `currentSourceRow_` by exactly one; it
calls `fetchMoreData` if and only if that advance crosses the end of the
current batch; it returns true iff the advance blocked on the producer, in
which case exactly one future is recorded and the current batch is left in
place; and under the precondition that the selection is empty whenever the
end of the batch is reached, the internal `VELOX_CHECK` never fails, while a
pending selection at the end of the batch is exactly the state the check
rejects, so the batch is never replaced while selected rows are pending. -/
theorem c4_pop_advances_fetches_blocks (s : BStream) :
    (s.currentSourceRow + 1 ≠ s.data.length →
      bPop s = some (false, { s with currentSourceRow := s.currentSourceRow + 1 }, 0)) ∧
    (s.currentSourceRow + 1 = s.data.length → s.outputRows = [] →
      bPop s = some (bFetchMoreData { s with currentSourceRow := s.currentSourceRow + 1 }) ∧
      ((bFetchMoreData { s with currentSourceRow := s.currentSourceRow + 1 }).1 = true ↔
        s.replies.head? = some SourceReply.blocked) ∧
      (s.replies.head? = some SourceReply.blocked →
        (bFetchMoreData { s with currentSourceRow := s.currentSourceRow + 1 }).2.2 = 1 ∧
        (bFetchMoreData { s with currentSourceRow := s.currentSourceRow + 1 }).2.1.data
          = s.data)) ∧
    (s.currentSourceRow + 1 = s.data.length → s.outputRows ≠ [] → bPop s = none) := by
  refine ⟨?_, ?_, ?_⟩
  · intro h
    simp only [bPop]
    rw [if_neg h]
  · intro h hsel
    refine ⟨?_, ?_, ?_⟩
    · simp only [bPop]
      rw [if_pos h, if_pos (by rw [hsel]; rfl)]
    · cases hr : s.replies with
      | nil => simp [bFetchMoreData, hr]
      | cons rep rest =>
        cases rep <;> simp [bFetchMoreData, hr]
    · intro hb
      cases hr : s.replies with
      | nil => rw [hr] at hb; exact absurd hb (by simp)
      | cons rep rest =>
        rw [hr] at hb
        simp at hb
        subst hb
        simp [bFetchMoreData, hr]
  · intro h hsel
    simp only [bPop]
    rw [if_pos h, if_neg (by simpa [List.isEmpty_iff] using hsel)]

/-- An example scripted cursor mid-batch. -/
def exBStream1 : BStream := { replies := [], data := [rowOfInt 1, rowOfInt 2], currentSourceRow := 0, firstSourceRow := 0, outputRows := [], needData := false, atEnd := false }

/-- An example scripted cursor at the end of its batch with a pending selection. -/
def exBStream2 : BStream := { replies := [SourceReply.blocked], data := [rowOfInt 1], currentSourceRow := 0, firstSourceRow := 0, outputRows := [0], needData := false, atEnd := false }

theorem c4_witness :
    (bPop exBStream1 = some (false, { exBStream1 with currentSourceRow := 1 }, 0)) ∧
    (bPop exBStream2 = none) := by
  constructor
  · exact (c4_pop_advances_fetches_blocks exBStream1).1 (by decide)
  · exact (c4_pop_advances_fetches_blocks exBStream2).2.2 (by decide) (by decide)

/-- C6: for a merge exchange over at least one remote task id, the per-source
queued-bytes budget handed to every created exchange source is
`clamp(maxMergeExchangeBufferSize / numSources, lowerLimit, upperLimit)`,
that is `min(max(maxMergeExchangeBufferSize / numSources, lowerLimit),
upperLimit)`, and the same budget goes to every source. -/
theorem c6_exchange_budget_clamped (lower upper buf : Int) (ids : List String)
    (h : ids ≠ []) :
    ∀ src ∈ createExchangeSources lower upper buf ids,
      src.maxQueuedBytes = specClamp (buf / (ids.length : Int)) lower upper := by
  intro src hs
  unfold createExchangeSources at hs
  rw [if_neg (by simpa [List.isEmpty_iff] using h)] at hs
  obtain ⟨t, _, rfl⟩ := List.mem_map.mp hs
  rfl

theorem c6_witness :
    ∃ src ∈ createExchangeSources 1 32 100 ["a", "b"],
      src.maxQueuedBytes = specClamp (100 / (2 : Int)) 1 32 := by
  have h := c6_exchange_budget_clamped 1 32 100 ["a", "b"] (by decide)
  refine ⟨{ taskId := "a", maxQueuedBytes := 32 }, by decide, h _ (by decide)⟩

/-- C7 (spec-modelled): in one arbitration round a task consisting only of
non-reclaimable operators is paused at most once, in fact zero times, while a
task with some reclaim-capable operator is paused exactly once — the pause
counts the `skipNonReclaimableTaskTest` scenario expects. -/
theorem c7_nonreclaimable_task_not_paused (ops : List ArbOperator)
    (h : ∀ op ∈ ops, op.canReclaim = false) :
    roundPauseCount ops ≤ 1 ∧ roundPauseCount ops = 0 ∧
    (∀ ops' : List ArbOperator, (∃ op ∈ ops', op.canReclaim = true) →
      roundPauseCount ops' = 1) := by
  have hz : taskReclaimable ops = false := by
    unfold taskReclaimable
    simp only [List.any_eq_false]
    intro op hop
    simp [h op hop]
  refine ⟨?_, ?_, ?_⟩
  · unfold roundPauseCount
    rw [hz]
    simp
  · unfold roundPauseCount
    rw [hz]
    rfl
  · intro ops' ⟨op, hop, hcr⟩
    unfold roundPauseCount taskReclaimable
    rw [if_pos ?_]
    rw [List.any_eq_true]
    exact ⟨op, hop, hcr⟩

theorem c7_witness :
    roundPauseCount [{ canReclaim := false }] = 0 ∧
    roundPauseCount [{ canReclaim := true }] = 1 := by
  have h := c7_nonreclaimable_task_not_paused [{ canReclaim := false }] (by decide)
  exact ⟨h.2.1, h.2.2 [{ canReclaim := true }] ⟨{ canReclaim := true }, by decide, rfl⟩⟩

/-- C8: if the source list is empty after installation, `Merge::isBlocked`
marks the operator finished and reports not blocked, and every subsequent
`getOutput` call returns null. -/
theorem c8_empty_sources_finish_immediately (keys : List SortingKey) (B : Nat)
    (st : MergeState) (h : st.streams = []) :
    mergeIsBlocked st = (BlockingReason.kNotBlocked, { st with finished := true }) ∧
    ∀ fuel, getOutput keys B fuel { st with finished := true }
      = some ({ st with finished := true }, none) := by
  constructor
  · unfold mergeIsBlocked
    rw [if_pos (by rw [h]; rfl)]
  · intro fuel
    unfold getOutput
    rw [if_pos rfl]

theorem c8_witness :
    mergeIsBlocked { streams := [], output := [], outputSize := 0, finished := false }
      = (BlockingReason.kNotBlocked,
         { streams := [], output := [], outputSize := 0, finished := true }) ∧
    getOutput ascKey 4 9
        { streams := [], output := [], outputSize := 0, finished := true }
      = some ({ streams := [], output := [], outputSize := 0, finished := true }, none) := by
  have h := c8_empty_sources_finish_immediately ascKey 4
    { streams := [], output := [], outputSize := 0, finished := false } rfl
  exact ⟨h.1, h.2 9⟩

/-- C9: constructing a `LocalMerge` on any driver other than 0 fails with the
"single-threaded" construction error, while driver 0 succeeds (given valid,
non-constant sorting keys); `MergeExchange::addMergeSources` on a driver
other than 0 skips installation and reports not blocked instead of failing. -/
theorem c9_local_merge_driver0_only (driverId : Nat) (chans : List KeyChannel)
    (orders : List SortOrder) (keys : List SortingKey)
    (hok : mergeConstructKeys chans orders = .ok keys) :
    (driverId ≠ 0 → localMergeConstruct driverId chans orders
        = .error "LocalMerge needs to run single-threaded") ∧
    (driverId = 0 → localMergeConstruct driverId chans orders = .ok keys) ∧
    (∀ lower upper buf ids, driverId ≠ 0 →
      exchangeAddMergeSources driverId lower upper buf ids
        = (BlockingReason.kNotBlocked, [])) := by
  refine ⟨?_, ?_, ?_⟩
  · intro h
    unfold localMergeConstruct
    rw [hok]
    dsimp only
    rw [if_neg h]
  · intro h
    unfold localMergeConstruct
    rw [hok]
    dsimp only
    rw [if_pos h]
  · intro lower upper buf ids h
    unfold exchangeAddMergeSources
    rw [if_pos h]

theorem c9_witness :
    (localMergeConstruct 1 [KeyChannel.column 0] [{ nullsFirst := true, ascending := true }]
      = .error "LocalMerge needs to run single-threaded") ∧
    (localMergeConstruct 0 [KeyChannel.column 0] [{ nullsFirst := true, ascending := true }]
      = .ok [{ channel := 0, flags := { nullsFirst := true, ascending := true } }]) ∧
    exchangeAddMergeSources 1 1 32 100 ["a"] = (BlockingReason.kNotBlocked, []) := by
  have h1 := c9_local_merge_driver0_only 1 [KeyChannel.column 0]
    [{ nullsFirst := true, ascending := true }]
    [{ channel := 0, flags := { nullsFirst := true, ascending := true } }] rfl
  have h0 := c9_local_merge_driver0_only 0 [KeyChannel.column 0]
    [{ nullsFirst := true, ascending := true }]
    [{ channel := 0, flags := { nullsFirst := true, ascending := true } }] rfl
  exact ⟨h1.1 (by decide), h0.2.1 rfl, h1.2.2 1 32 100 ["a"] (by decide)⟩

/-- C10: once the operator is finished, `Merge::getOutput` returns null
immediately and leaves the state untouched — no source is polled, no future
is recorded, no output batch is allocated, and `finished_` stays set. -/
theorem c10_finished_getOutput_is_frame (keys : List SortingKey) (B fuel : Nat)
    (st : MergeState) (h : st.finished = true) :
    getOutput keys B fuel st = some (st, none) := by
  unfold getOutput
  rw [if_pos h]

/-- A finished operator state with one source that still has a batch queued. -/
def exFinishedState : MergeState := { streams := [{ pending := [[rowOfInt 3]], data := [], currentSourceRow := 0, firstSourceRow := 0, outputRows := [], atEnd := false }], output := [], outputSize := 0, finished := true }

theorem c10_witness :
    getOutput ascKey 4 7 exFinishedState = some (exFinishedState, none) :=
  c10_finished_getOutput_is_frame ascKey 4 7 exFinishedState rfl

/-- C5: every filled output slot of the batch under construction is owned by
exactly one stream at the moment its row is emitted: when the tournament
yields winner `w`, marking the current slot through `setOutputRow` leaves
exactly one stream (the winner) owning that slot, every slot stays owned by
at most one stream, and no earlier slot was skipped — each is owned by
exactly one stream or already copied into `output_`. -/
theorem c5_exactly_one_owner_per_slot (keys : List SortingKey) (B : Nat)
    (st : MergeState) (emitted committed : List Row)
    (inv : LoopInv keys B st emitted committed)
    (i : Nat) (w : SourceStream)
    (hpick : pickMinAux keys st.streams = some (i, w)) :
    countOwners (st.streams.set i (setOutputRow w st.outputSize).1) st.outputSize = 1 ∧
    (∀ j, countOwners (st.streams.set i (setOutputRow w st.outputSize).1) j ≤ 1) ∧
    (∀ j, j < st.outputSize → countOwners st.streams j = 1 ∨
      (countOwners st.streams j = 0 ∧
        st.output[j]? = some (some (committed.getD j [])))) := by
  obtain ⟨hw, hwne, hmin⟩ := pickMinAux_spec keys st.streams i w hpick
  have hslot_not : ∀ s ∈ st.streams, st.outputSize ∉ s.outputRows := by
    intro s hs hmem
    exact absurd (inv.ownerLt s hs st.outputSize hmem) (by omega)
  have hsplit := list_split st.streams i w hw
  have hseteq := list_set_split st.streams i w (setOutputRow w st.outputSize).1 hw
  have hmemold : ∀ u : SourceStream,
      u ∈ st.streams.take i ∨ u ∈ st.streams.drop (i + 1) → u ∈ st.streams := by
    intro u hu
    rw [hsplit]
    rcases hu with h | h
    · exact List.mem_append_left _ h
    · exact List.mem_append_right _ (List.mem_cons_of_mem w h)
  have hcount_split : ∀ j, countOwners st.streams j
      = countOwners (st.streams.take i) j + (if j ∈ w.outputRows then 1 else 0)
        + countOwners (st.streams.drop (i + 1)) j := by
    intro j
    conv_lhs => rw [hsplit]
    rw [countOwners_append, countOwners_cons]
    omega
  have hcount_new : ∀ j, countOwners (st.streams.set i (setOutputRow w st.outputSize).1) j
      = countOwners (st.streams.take i) j
        + (if j ∈ w.outputRows ++ [st.outputSize] then 1 else 0)
        + countOwners (st.streams.drop (i + 1)) j := by
    intro j
    rw [hseteq, countOwners_append, countOwners_cons]
    simp only [setOutputRow]
    omega
  refine ⟨?_, ?_, ?_⟩
  · rw [hcount_new st.outputSize]
    have hA : countOwners (st.streams.take i) st.outputSize = 0 :=
      (countOwners_eq_zero _ _).mpr (fun u hu => hslot_not u (hmemold u (Or.inl hu)))
    have hB2 : countOwners (st.streams.drop (i + 1)) st.outputSize = 0 :=
      (countOwners_eq_zero _ _).mpr (fun u hu => hslot_not u (hmemold u (Or.inr hu)))
    rw [hA, hB2, if_pos (List.mem_append_right _ (List.mem_singleton.mpr rfl))]
  · intro j
    rw [hcount_new j]
    have h1 := inv.ownersLe j
    rw [hcount_split j] at h1
    by_cases hjs : j = st.outputSize
    · have hA : countOwners (st.streams.take i) st.outputSize = 0 :=
        (countOwners_eq_zero _ _).mpr (fun u hu => hslot_not u (hmemold u (Or.inl hu)))
      have hB2 : countOwners (st.streams.drop (i + 1)) st.outputSize = 0 :=
        (countOwners_eq_zero _ _).mpr (fun u hu => hslot_not u (hmemold u (Or.inr hu)))
      rw [hjs, hA, hB2]
      split <;> omega
    · have hmemiff : (j ∈ w.outputRows ++ [st.outputSize]) ↔ j ∈ w.outputRows := by
        rw [List.mem_append, List.mem_singleton]
        exact ⟨fun h => h.resolve_right hjs, Or.inl⟩
      by_cases hjw : j ∈ w.outputRows
      · rw [if_pos (hmemiff.mpr hjw)]
        rw [if_pos hjw] at h1
        omega
      · rw [if_neg (fun hmem => hjw (hmemiff.mp hmem))]
        rw [if_neg hjw] at h1
        omega
  · intro j hj
    have h1 := inv.ownersLe j
    rcases Nat.lt_or_ge 0 (countOwners st.streams j) with hpos | hz
    · left; omega
    · right
      have hzero : countOwners st.streams j = 0 := by omega
      exact ⟨hzero, inv.slotCopied j hj hzero⟩

theorem c5_witness :
    countOwners ((initMerge scenarioInputs).streams.set 0
        (setOutputRow (initStream [[rowOfInt 1, rowOfInt 4, rowOfInt 7]]) 0).1) 0 = 1 := by
  obtain ⟨binv, hrem, hlen⟩ :=
    initMerge_boundary ascKey scenarioInputs (by decide) (by decide) (by decide)
  have inv₀ := loopInv_of_boundary ascKey 4 (initMerge scenarioInputs) [] binv
  have h := c5_exactly_one_owner_per_slot ascKey 4
    { initMerge scenarioInputs with output := List.replicate 4 none } [] [] inv₀
    0 (initStream [[rowOfInt 1, rowOfInt 4, rowOfInt 7]]) (by decide)
  exact h.1

/-! ### Single-source runs: passthrough and the tree at N = 1 -/

theorem runMergeTree_finished (keys : List SortingKey) (B : Nat) (fuel : Nat)
    (st : MergeState) (h : st.finished = true) : runMergeTree keys B fuel st = some [] := by
  cases fuel with
  | zero => simp [runMergeTree, h]
  | succ n => simp [runMergeTree, h]

/-- With a single source, `Merge::getOutput` takes the passthrough branch and
forwards the source's batches verbatim, finishing exactly when the source is
drained.  The sort keys are never consulted. -/
theorem runMerge_single_pass (keys : List SortingKey) (B : Nat) :
    ∀ (pending : List (List Row)) (fuel : Nat) (st : MergeState) (s : SourceStream),
    st.streams = [s] → s.pending = pending → st.finished = false →
    pending.length + 1 ≤ fuel →
    runMerge keys B fuel st = some pending := by
  intro pending
  induction pending with
  | nil =>
    intro fuel st s hs hp hf hfuel
    cases fuel with
    | zero => omega
    | succ n =>
      have hpass : passIter st = ({ st with finished := true }, none) := by
        unfold passIter
        rw [hs]
        dsimp only
        rw [hp]
      have hgo : getOutput keys B (n + 1) st = some ({ st with finished := true }, none) := by
        unfold getOutput
        rw [if_neg (by simp [hf]), if_pos (by rw [hs]; rfl), hpass]
      simp only [runMerge]
      rw [if_neg (by simp [hf]), hgo]
      dsimp only
      rw [runMerge_finished keys B n _ rfl]
      rfl
  | cons b rest ih =>
    intro fuel st s hs hp hf hfuel
    cases fuel with
    | zero => omega
    | succ n =>
      have hpass : passIter st
          = ({ st with streams := [{ s with pending := rest }] }, some b) := by
        unfold passIter
        rw [hs]
        dsimp only
        rw [hp]
      have hgo : getOutput keys B (n + 1) st
          = some ({ st with streams := [{ s with pending := rest }] }, some b) := by
        unfold getOutput
        rw [if_neg (by simp [hf]), if_pos (by rw [hs]; rfl), hpass]
      have hrest := ih n { st with streams := [{ s with pending := rest }] }
        { s with pending := rest } rfl rfl hf (by simp at hfuel; omega)
      simp only [runMerge]
      rw [if_neg (by simp [hf]), hgo]
      dsimp only
      rw [hrest]
      rfl

/-- The tree loop of `Merge::getOutput` applied to a single stream: in order
every committed row is the stream's next row, so the run reproduces the
stream's remaining rows. -/
theorem getOutputLoop_single_spec (keys : List SortingKey) (B : Nat) :
    ∀ (fuel : Nat) (st : MergeState) (emitted committed all : List Row),
    LoopInv keys B st emitted committed → st.outputSize < B →
    st.streams.length = 1 →
    emitted ++ committed ++ (st.streams.map SourceStream.future).flatten = all →
    remainingRows st + 1 ≤ fuel →
    ∃ st' out, getOutputLoop keys B fuel st = some (st', out) ∧
      ((out = none ∧ st'.finished = true ∧ emitted = all) ∨
       (∃ b, out = some b ∧ st'.finished = true ∧ emitted ++ b = all) ∨
       (∃ b, out = some b ∧ st'.finished = false ∧
          BoundaryInv keys st' (emitted ++ b) ∧ st'.streams.length = 1 ∧
          (emitted ++ b) ++ (st'.streams.map SourceStream.future).flatten = all ∧
          remainingRows st' < remainingRows st)) := by
  intro fuel
  induction fuel with
  | zero => intro st emitted committed all _ _ _ _ hf; omega
  | succ n ih =>
    intro st emitted committed all inv hlt hlen1 hall hf
    rcases hpick : pickMinAux keys st.streams with _ | ⟨i, w⟩
    · obtain ⟨hrem, hit, hcz⟩ := mergeIter_finish keys B st emitted committed inv hlt hpick
      have hflat : (st.streams.map SourceStream.future).flatten = [] := by
        have hend := (pickMinAux_eq_none keys st.streams).mp hpick
        rw [List.flatten_eq_nil_iff]
        intro l hl
        obtain ⟨u, hu, rfl⟩ := List.mem_map.mp hl
        exact future_atEnd u (hend u hu)
      rw [hflat, List.append_nil] at hall
      by_cases h0 : st.outputSize = 0
      · refine ⟨{ st with finished := true }, none, ?_, Or.inl ⟨rfl, rfl, ?_⟩⟩
        · simp only [getOutputLoop]
          rw [hit, if_pos h0]
        · rw [hcz h0, List.append_nil] at hall
          exact hall
      · refine ⟨{ st with finished := true }, some committed, ?_,
          Or.inr (Or.inl ⟨committed, rfl, rfl, hall⟩)⟩
        simp only [getOutputLoop]
        rw [hit, if_neg h0]
    · obtain ⟨hw, hwne, _⟩ := pickMinAux_spec keys st.streams i w hpick
      have hi0 : i = 0 := by
        have hilt : i < st.streams.length := by
          by_contra hge
          rw [List.getElem?_eq_none (by omega)] at hw
          exact Option.noConfusion hw
        omega
      subst hi0
      have hcur : w.currentSourceRow < w.data.length := by
        have hwmem : w ∈ st.streams := List.mem_iff_getElem?.mpr ⟨0, hw⟩
        exact (inv.sinv w hwmem).cur_lt hwne
      have hstreq : st.streams = [w] := by
        cases hstr : st.streams with
        | nil => rw [hstr] at hw; simp at hw
        | cons u t =>
          rw [hstr] at hlen1 hw
          simp only [List.getElem?_cons_zero, Option.some.injEq] at hw
          cases t with
          | nil => rw [hw]
          | cons v t' => simp at hlen1
      obtain ⟨st₁, inv₁, hsz, hslen, hfmap, hrem, hbr⟩ :=
        mergeIter_step keys B st emitted committed inv hlt 0 w hpick
      have hfut_old : st.streams.map SourceStream.future = [w.future] := by
        rw [hstreq]
        rfl
      have hfut₁ : st₁.streams.map SourceStream.future = [w.future.tail] := by
        rw [hfmap, hfut_old]
        rfl
      have hwcons := future_eq_cons w hwne hcur
      have hall₁ : emitted ++ (committed ++ [w.current])
          ++ (st₁.streams.map SourceStream.future).flatten = all := by
        rw [hfut₁]
        rw [hfut_old] at hall
        simp only [List.flatten_cons, List.flatten_nil, List.append_nil] at hall ⊢
        rw [← hall, hwcons]
        simp
      have hlen₁ : st₁.streams.length = 1 := by rw [hslen, hlen1]
      rcases hbr with ⟨hne, hit⟩ | ⟨hB, st₂, hit, binv, hslen₂, hfmap₂⟩
      · have hlt₁ : st₁.outputSize < B := by
          have := inv₁.sizeLe
          omega
        obtain ⟨st', out, hloop, hcase⟩ :=
          ih st₁ emitted (committed ++ [w.current]) all inv₁ hlt₁ hlen₁ hall₁ (by omega)
        refine ⟨st', out, ?_, ?_⟩
        · simp only [getOutputLoop]
          rw [hit]
          exact hloop
        · rcases hcase with h | h | ⟨b, h1, h2, h3, h4, h5, h6⟩
          · exact Or.inl h
          · exact Or.inr (Or.inl h)
          · exact Or.inr (Or.inr ⟨b, h1, h2, h3, h4, h5, by omega⟩)
      · refine ⟨st₂, some (committed ++ [w.current]), ?_, ?_⟩
        · simp only [getOutputLoop]
          rw [hit]
        · have hrem₂ : remainingRows st₂ = remainingRows st₁ :=
            remaining_eq_of_future_map_eq st₂ st₁ hfmap₂
          refine Or.inr (Or.inr ⟨committed ++ [w.current], rfl, binv.notFin,
            List.append_assoc emitted committed [w.current] ▸ binv,
            hslen₂.trans hlen1, ?_, by omega⟩)
          rw [show st₂.streams.map SourceStream.future
              = st₁.streams.map SourceStream.future from hfmap₂]
          exact hall₁

/-- Driver loop over `getOutputTree` for a single stream: the emitted rows are
exactly the stream's remaining rows, in order. -/
theorem runMergeTree_single_spec (keys : List SortingKey) (B : Nat) (hB : 1 ≤ B) :
    ∀ (fuel : Nat) (st : MergeState) (emitted all : List Row),
    BoundaryInv keys st emitted → st.streams.length = 1 →
    emitted ++ (st.streams.map SourceStream.future).flatten = all →
    remainingRows st + 2 ≤ fuel →
    ∃ batches, runMergeTree keys B fuel st = some batches ∧
      emitted ++ batches.flatten = all := by
  intro fuel
  induction fuel with
  | zero => intro st emitted all _ _ _ hf; omega
  | succ n ih =>
    intro st emitted all binv hlen1 hall hf
    have hnotfin := binv.notFin
    have inv₀ := loopInv_of_boundary keys B st emitted binv
    have hlt₀ : ({ st with output := List.replicate B none } : MergeState).outputSize < B := by
      show st.outputSize < B
      rw [binv.size0]
      omega
    obtain ⟨st', out, hloop, hcase⟩ :=
      getOutputLoop_single_spec keys B (n + 1) { st with output := List.replicate B none }
        emitted [] all inv₀ hlt₀ hlen1 (by simpa using hall) (by
          show remainingRows st + 1 ≤ n + 1
          omega)
    have hgo : getOutputTree keys B (n + 1) st = some (st', out) := by
      unfold getOutputTree
      rw [if_neg (by simp [hnotfin]), if_pos (by rw [binv.outNil]; rfl)]
      exact hloop
    rcases hcase with ⟨h1, h2, h3⟩ | ⟨b, h1, h2, h3⟩ | ⟨b, h1, h2, h3, h4, h5, h6⟩
    · subst h1
      refine ⟨[], ?_, by simpa using h3⟩
      simp only [runMergeTree]
      rw [if_neg (by simp [hnotfin]), hgo]
      dsimp only
      rw [runMergeTree_finished keys B n st' h2]
      rfl
    · subst h1
      refine ⟨[b], ?_, by simpa using h3⟩
      simp only [runMergeTree]
      rw [if_neg (by simp [hnotfin]), hgo]
      dsimp only
      rw [runMergeTree_finished keys B n st' h2]
      rfl
    · subst h1
      have hreq : remainingRows { st with output := List.replicate B none }
          = remainingRows st := rfl
      obtain ⟨batches', hrun', hflat'⟩ := ih st' (emitted ++ b) all h3 h4 h5 (by omega)
      refine ⟨b :: batches', ?_, ?_⟩
      · simp only [runMergeTree]
        rw [if_neg (by simp [hnotfin]), hgo]
        dsimp only
        rw [hrun']
        rfl
      · rw [List.flatten_cons, ← List.append_assoc]
        exact hflat'

/-- Single-source input for the C3 witness. -/
def c3Input : List (List Row) := [[rowOfInt 10, rowOfInt 20], [rowOfInt 30]]

/-- C3: with exactly one source, `Merge::getOutput` takes the passthrough
branch (Merge.cpp:154-166): `initializeTreeOfLosers` is skipped
(Merge.cpp:106-109) so no cursors and no tournament tree exist, each batch
pulled from `sources_[0]` is forwarded verbatim, the run finishes exactly when
the source is drained, and the result does not depend on the sorting keys (no
comparator call).  Moreover this passthrough is output-equivalent to the
general N-way algorithm at N = 1: the tree run emits exactly the same rows in
the same order. -/
theorem c3_single_source_passthrough (keys keys' : List SortingKey) (B : Nat)
    (hB : 1 ≤ B) (input : List (List Row))
    (hne : ∀ b ∈ input, b ≠ [])
    (hsorted : input.flatten.Pairwise (rowLe keys)) :
    runMerge keys B (input.length + 1) (initMerge [input]) = some input ∧
    runMerge keys B (input.length + 1) (initMerge [input])
      = runMerge keys' B (input.length + 1) (initMerge [input]) ∧
    ∃ batches,
      runMergeTree keys B (input.flatten.length + 2) (initMergeTree [input])
        = some batches ∧ batches.flatten = input.flatten := by
  have hpass : ∀ k : List SortingKey,
      runMerge k B (input.length + 1) (initMerge [input]) = some input := by
    intro k
    refine runMerge_single_pass k B input (input.length + 1) (initMerge [input])
      (freshStream input) ?_ rfl rfl (by omega)
    simp [initMerge]
  refine ⟨hpass keys, (hpass keys).trans (hpass keys').symm, ?_⟩
  have hsi := initStream_inv keys input hne hsorted
  have binv : BoundaryInv keys (initMergeTree [input]) [] := by
    refine ⟨rfl, rfl, rfl, ?_, ?_, List.Pairwise.nil, ?_⟩
    · intro s hs
      have hseq : s = initStream input := by simpa [initMergeTree] using hs
      rw [hseq]
      exact hsi.1
    · intro s hs
      have hseq : s = initStream input := by simpa [initMergeTree] using hs
      rw [hseq]
      exact hsi.2.1
    · intro x hx
      exact absurd hx (List.not_mem_nil x)
  have hfl : ([] : List Row)
      ++ ((initMergeTree [input]).streams.map SourceStream.future).flatten
      = input.flatten := by
    simp only [initMergeTree, List.map_cons, List.map_nil, List.flatten_cons,
      List.flatten_nil, List.append_nil, List.nil_append]
    exact hsi.2.2
  have hrem : remainingRows (initMergeTree [input]) = input.flatten.length := by
    unfold remainingRows
    simp only [initMergeTree, List.map_cons, List.map_nil, List.sum_cons,
      List.sum_nil, Nat.add_zero]
    rw [hsi.2.2]
  obtain ⟨batches, hrun, hflat⟩ :=
    runMergeTree_single_spec keys B hB (input.flatten.length + 2)
      (initMergeTree [input]) [] input.flatten binv rfl hfl (by omega)
  exact ⟨batches, hrun, by simpa using hflat⟩

/-- Witness for C3 on a concrete two-batch single source with keys `ascKey`
versus the empty key list. -/
theorem c3_witness :
    runMerge ascKey 4 (c3Input.length + 1) (initMerge [c3Input]) = some c3Input ∧
    runMerge ascKey 4 (c3Input.length + 1) (initMerge [c3Input])
      = runMerge [] 4 (c3Input.length + 1) (initMerge [c3Input]) ∧
    ∃ batches,
      runMergeTree ascKey 4 (c3Input.flatten.length + 2) (initMergeTree [c3Input])
        = some batches ∧ batches.flatten = c3Input.flatten :=
  c3_single_source_passthrough ascKey [] 4 (by decide) c3Input (by decide) (by decide)

end VeloxMerge
